import Mathlib

/- Verification of the XML-to-JSON converter (src/XMLtoJSON.py) against its
   specification. The program is shallowly embedded: Python strings become
   List Char, Python exceptions become Option results, the producer/consumer
   queue becomes the token list it carries (FIFO order is guaranteed by the
   source), and the unbounded reading loops become fueled or structurally
   recursive functions together with lemmas showing the fuel suffices on the
   inputs the claims speak about. -/

def str (s : String) : List Char := s.data

/-- Embedding of matching_tag (XMLtoJSON.py lines 15-26). Python inspects
tag[1] and slices; on strings of length at least 2 this definition agrees with
the source exactly (on shorter strings Python raises IndexError; no claim
depends on those). -/
def matching_tag (tag : List Char) : List Char :=
  if tag[1]? = some '/' then '<' :: tag.drop 2
  else '<' :: '/' :: tag.drop 1

/-- Embedding of the offset computation in Parser.error (lines 139-142):
number = 0 if len(message) > char_counter else char_counter - len(string).
Python subtraction of ints, hence Int-valued. -/
def pyErrorNumber (message string : List Char) (charCounter : Nat) : Int :=
  if charCounter < message.length then 0
  else (charCounter : Int) - string.length

/-- Characters Python treats as illegal inside values (line 113). -/
def illegal_characters : List Char := ['<', '>', '"', '\'', '&']

/-- Python str.isprintable for one character, modeled on the ASCII range (all
inputs in the claims are ASCII; outside ASCII Python consults Unicode
categories, which the claims never exercise). -/
def pyIsPrintableChar (c : Char) : Bool := 0x20 ≤ c.toNat && c.toNat ≤ 0x7e

/-- Python str.isprintable (true on the empty string). -/
def pyIsPrintable (s : List Char) : Bool := s.all pyIsPrintableChar

/-- Python whitespace characters removed by str.strip. -/
def pyIsSpaceChar (c : Char) : Bool :=
  c == ' ' || c == '\t' || c == '\n' || c == '\r' || c == '\x0b' || c == '\x0c'

/-- Python string.strip() != "", i.e. the string has a non-whitespace char. -/
def pyStripNonempty (s : List Char) : Bool := s.any (fun c => !pyIsSpaceChar c)

/-- Python str.isdigit, modeled on ASCII digits. -/
def pyIsDigit (s : List Char) : Bool := !s.isEmpty && s.all Char.isDigit

/- The schema tree. XMLStructureNode (lines 276-325) has value, repeatable,
   allowed_values, children and a parent back-reference; the back-reference is
   recovered where needed (tagToNodeP below) instead of being stored. The
   children list is represented by the mutually inductive Forest so that all
   tree functions are structurally recursive and compute by rfl. -/

mutual
inductive Node where
  | mk (value : List Char) (repeatable : Bool)
       (allowed_values : Option (List (List Char))) (children : Forest)
deriving DecidableEq

inductive Forest where
  | nil
  | cons (n : Node) (f : Forest)
deriving DecidableEq
end

def Node.value : Node → List Char
  | .mk v _ _ _ => v

def Node.repeatable : Node → Bool
  | .mk _ r _ _ => r

def Node.allowed_values : Node → Option (List (List Char))
  | .mk _ _ a _ => a

def Node.children : Node → Forest
  | .mk _ _ _ c => c

/-- XMLStructureNode.has_child (lines 294-302). -/
def Node.hasChild (n : Node) : Bool :=
  match n.children with
  | .nil => false
  | .cons _ _ => true

/-- XMLStructureNode.find_child (lines 313-325): first child with the value. -/
def Forest.findChild : Forest → List Char → Option Node
  | .nil, _ => none
  | .cons n f, v => if n.value == v then some n else Forest.findChild f v

def Node.findChild (n : Node) (v : List Char) : Option Node :=
  n.children.findChild v

/- Structural equality of nodes; used where Python compares node objects
(stack.top == structure, line 673/687). The compared objects there are the
root and nodes of the same finite tree, where structural equality and Python
identity coincide (no proper subtree equals the whole tree). -/
mutual
def nodeBEq : Node → Node → Bool
  | .mk v1 r1 a1 c1, .mk v2 r2 a2 c2 =>
      v1 == v2 && r1 == r2 && a1 == a2 && forestBEq c1 c2

def forestBEq : Forest → Forest → Bool
  | .nil, .nil => true
  | .cons n1 f1, .cons n2 f2 => nodeBEq n1 n2 && forestBEq f1 f2
  | .nil, .cons _ _ => false
  | .cons _ _, .nil => false
end

/- The leaf tags of a subtree in preorder: exactly the (tag, None) pairs that
XMLObject.build (lines 387-398) appends, and the value_tags that Parser.build
(lines 119-130) collects. -/
mutual
def leafTags : Node → List (List Char)
  | .mk v _ _ .nil => [v]
  | .mk _ _ _ (.cons c f) => leafTagsF (.cons c f)

def leafTagsF : Forest → List (List Char)
  | .nil => []
  | .cons n f => leafTags n ++ leafTagsF f
end

/- The container tags of a subtree in preorder: Parser.build's other_tags. -/
mutual
def otherTags : Node → List (List Char)
  | .mk _ _ _ .nil => []
  | .mk v _ _ (.cons c f) => v :: otherTagsF (.cons c f)

def otherTagsF : Forest → List (List Char)
  | .nil => []
  | .cons n f => otherTags n ++ otherTagsF f
end

/- XMLObject.tag_to_node (lines 400-416), preorder search by tag, extended to
also return the parent node that Python would reach through the node.parent
back-reference (none for the root). -/
mutual
def tagToNodeP (parent : Option Node) (n : Node) (tag : List Char) :
    Option (Node × Option Node) :=
  match n with
  | .mk v r a c =>
      if v == tag then some (.mk v r a c, parent)
      else tagToNodePF (.mk v r a c) c tag

def tagToNodePF (parent : Node) (f : Forest) (tag : List Char) :
    Option (Node × Option Node) :=
  match f with
  | .nil => none
  | .cons c rest =>
      match tagToNodeP (some parent) c tag with
      | some r => some r
      | none => tagToNodePF parent rest tag
end

/- The bundled schema (lines 722-728). -/

def objNameT : List Char := str "<obj_name>"
def nameT : List Char := str "<name>"
def typeT : List Char := str "<type>"
def valueT : List Char := str "<value>"

def nameNode : Node := .mk nameT false none .nil
def typeNode : Node := .mk typeT false (some [str "int", str "string"]) .nil
def valueNode : Node := .mk valueT false none .nil
def fieldNode : Node :=
  .mk (str "<field>") true none (.cons nameNode (.cons typeNode (.cons valueNode .nil)))
def objNameNode : Node := .mk objNameT false none .nil
def objectNode : Node :=
  .mk (str "<object>") true none (.cons objNameNode (.cons fieldNode .nil))

/- XMLObject (lines 372-468): the Record. tags and values are the two parallel
   sequences; structNode is the Python structure attribute (a Lean keyword). -/

structure XMLObject where
  structNode : Node
  tags : List (List Char)
  values : List (Option (List Char))
deriving DecidableEq

/-- XMLObject.build applied to a subtree (lines 387-398): appends one tag and
one unset value per leaf of the subtree, in preorder. -/
def XMLObject.buildAppend (o : XMLObject) (n : Node) : XMLObject :=
  { o with tags := o.tags ++ leafTags n,
           values := o.values ++ List.replicate (leafTags n).length none }

/-- XMLObject construction (lines 381-385): build from an empty object. -/
def XMLObject.init (s : Node) : XMLObject :=
  { structNode := s, tags := leafTags s,
    values := List.replicate (leafTags s).length none }

/-- Embedding of last_index (lines 29-42): index of the last occurrence;
none models the ValueError Python raises when the value is absent. -/
def last_index (l : List (List Char)) (v : List Char) : Option Nat :=
  match l.reverse.findIdx? (· == v) with
  | some i => some (l.length - i - 1)
  | none => none

/-- XMLObject.get_value (lines 418-435). The starting index is an Int because
the convert loop threads -1 sentinels through it (always via index + 1, so the
value reaching list.index is nonnegative whenever the guard passes). -/
def XMLObject.get_value (o : XMLObject) (tag : List Char) (startingIndex : Int) :
    Option (List Char) × Int :=
  if (o.tags.length : Int) ≤ startingIndex then (none, -1)
  else
    match (o.tags.drop startingIndex.toNat).findIdx? (· == tag) with
    | some i => (o.values.getD (startingIndex.toNat + i) none, ((startingIndex.toNat + i : Nat) : Int))
    | none => (none, -1)

/-- The error messages set_value can send (lines 457 and 464). -/
inductive SVErr where
  | dupValue (tag : List Char)
  | valueNotAllowed (value : List Char) (tag : List Char)
deriving DecidableEq

/-- The assignment tail of set_value (lines 459-468): allowed-values check,
then store. -/
def XMLObject.assign (o : XMLObject) (node : Node) (index : Nat)
    (tag value : List Char) : XMLObject × Bool × List SVErr :=
  match node.allowed_values with
  | some av =>
      if av.contains value then
        ({ o with values := o.values.set index (some value) }, true, [])
      else (o, false, [.valueNotAllowed value tag])
  | none => ({ o with values := o.values.set index (some value) }, true, [])

/-- Embedding of XMLObject.set_value (lines 437-468). none models the Python
exceptions that escape it: ValueError from last_index when the tag has no
slot, and AttributeError when node (or node.parent) is None at a dereference.
The values[index] reads and writes stay in range because of the
length-invariant (claim C9). -/
def XMLObject.set_value (o : XMLObject) (tag value : List Char) :
    Option (XMLObject × Bool × List SVErr) :=
  match last_index o.tags tag with
  | none => none
  | some index =>
    match o.values[index]? with
    | none => none
    | some slot =>
      match slot, tagToNodeP none o.structNode tag with
      | some _, some (node, some parent) =>
          if parent.repeatable then
            match last_index (o.buildAppend parent).tags tag with
            | none => none
            | some index2 => some ((o.buildAppend parent).assign node index2 tag value)
          else some (o, false, [.dupValue tag])
      | some _, some (_, none) => none
      | some _, none => some (o, false, [.dupValue tag])
      | none, none => none
      | none, some (node, _) => some (o.assign node index tag value)

/- The Lexer (Parser, lines 87-273). -/

/-- The tag lists Parser.build (lines 119-130) collects from the schema. -/
structure LexSchema where
  value_tags : List (List Char)
  other_tags : List (List Char)
deriving DecidableEq

def LexSchema.ofNode (n : Node) : LexSchema :=
  { value_tags := leafTags n, other_tags := otherTags n }

/-- Parser.is_value_tag (lines 163-174). -/
def is_value_tag (ps : LexSchema) (tag : List Char) : Bool :=
  ps.value_tags.contains tag

/-- Parser.is_correct_tag (lines 176-192) as a predicate; the diagnostic it
sends on failure is emitted by the caller in lexRun below, with the same
message and offset as the source. -/
def is_correct_tag (ps : LexSchema) (tag : List Char) : Bool :=
  ps.value_tags.contains tag || ps.other_tags.contains tag ||
    ps.value_tags.contains (matching_tag tag) || ps.other_tags.contains (matching_tag tag)

def hasIllegalChar (v : List Char) : Bool :=
  v.any (fun c => illegal_characters.contains c)

/-- Parser.is_correct_value (lines 194-209) as a predicate. -/
def is_correct_value (v : List Char) : Bool :=
  !hasIllegalChar v && pyIsPrintable v

/-- One diagnostic as formatted by Parser.error (lines 132-146). -/
structure PDiag where
  number : Int
  message : List Char
  offending : Option (List Char)
deriving DecidableEq

/-- Parser.error (lines 132-146): the offending string is dropped from the
formatted line when it is not printable. -/
def mkPDiag (message string : List Char) (charCounter : Nat) : PDiag :=
  { number := pyErrorNumber message string charCounter,
    message := message,
    offending := if pyIsPrintable string then some string else none }

def incorrectTagMsg : List Char := str "Found incorrect tag"
def illegalValueMsg : List Char := str "Found illegal characters in value"
def nonPrintableValueMsg : List Char := str "Found non-printable characters in value"
def misplacedTextMsg : List Char := str "Found incorrectly placed text"

/-- The diagnostics is_correct_value sends (lines 203-208): illegal characters
are checked before printability. -/
def valueDiag (v : List Char) (n : Nat) : List PDiag :=
  if hasIllegalChar v then [mkPDiag illegalValueMsg v n]
  else if !pyIsPrintable v then [mkPDiag nonPrintableValueMsg v n]
  else []

/-- Splits off the longest prefix without the stop character; the stop char
(when present) starts the second component. Models the two read-accumulate
loops of Parser.run. -/
def splitAtChar (stop : Char) : List Char → List Char × List Char
  | [] => ([], [])
  | c :: cs =>
      if c = stop then ([], c :: cs)
      else
        let p := splitAtChar stop cs
        (c :: p.1, p.2)

/-- Embedding of Parser.run's reading loop (lines 211-273) as a fueled
function over the remaining input. Arguments: remaining input, the read_value
flag, and char_counter. Returns the queue contents and the diagnostics, in
order. Every recursive call strictly shortens the input, so any fuel beyond
the input length gives the loop's true result (lexRun_fuel below); on a '<'
the tag is accumulated to '>' inclusive, otherwise a value is accumulated up
to the next '<', which Python has already consumed when the value is handled,
hence the n2 - 1 on the continuation. A value read at end of input is still
processed (Python breaks out of the inner loop and falls through), and an
unterminated tag at end of input is still checked and possibly enqueued. -/
def lexRun (ps : LexSchema) : Nat → List Char → Bool → Nat → List (List Char) × List PDiag
  | 0, _, _, _ => ([], [])
  | fuel + 1, l, read_value, n =>
    match l with
    | [] => ([], [])
    | c :: rest =>
      if c = '<' then
        let p := splitAtChar '>' rest
        match p.2 with
        | [] =>
            let t := '<' :: p.1
            let n2 := n + 1 + p.1.length
            if is_correct_tag ps t then ([t], [])
            else ([], [mkPDiag incorrectTagMsg t n2])
        | _ :: rest2 =>
            let t := '<' :: p.1 ++ ['>']
            let n2 := n + 1 + p.1.length + 1
            if is_correct_tag ps t then
              let r := lexRun ps fuel rest2 (is_value_tag ps t) n2
              (t :: r.1, r.2)
            else
              let r := lexRun ps fuel rest2 false n2
              (r.1, mkPDiag incorrectTagMsg t n2 :: r.2)
      else
        let p := splitAtChar '<' (c :: rest)
        let n2 := n + p.1.length + (if p.2.isEmpty then 0 else 1)
        let out : List (List Char) × List PDiag :=
          if read_value then
            if is_correct_value p.1 then ([p.1], []) else ([], valueDiag p.1 n2)
          else
            if pyStripNonempty p.1 then ([], [mkPDiag misplacedTextMsg p.1 n2])
            else ([], [])
        match p.2 with
        | [] => out
        | _ :: rest2 =>
            let r := lexRun ps fuel ('<' :: rest2) false (n2 - 1)
            (out.1 ++ r.1, out.2 ++ r.2)

/- The Depth Validator (Converter.run, lines 614-710). -/

/-- The diagnostics Converter.error can send from the token loop, tagged with
the string_counter value at the time of the call. -/
inductive CDiag where
  | notProperClosing (counter : Nat) (topTag : List Char) (s : List Char)
  | reopened (counter : Nat) (s : List Char)
  | notBelong (counter : Nat) (topTag : List Char) (s : List Char)
  | foundTagInsteadOfValue (counter : Nat) (s : List Char)
  | textBeforeRoot (counter : Nat) (rootTag : List Char) (s : List Char)
  | fromSetValue (counter : Nat) (e : SVErr)
deriving DecidableEq

/-- The Converter state: the depth stack (head is top), the object under
construction, the completed objects, string_counter, and the error stream. -/
structure RunState where
  stack : List Node
  current : XMLObject
  objects : List XMLObject
  counter : Nat
  diags : List CDiag
deriving DecidableEq

/-- Embedding of the recovery loop (lines 667-675, likewise 681-689), applied
to the stack left after the initial pop: keep popping; push the matching child
and stop at the first node owning the offending tag as a child; stop without
pushing at the root when the offending tag is the root's own tag. -/
def recoverySearch (root : Node) (s : List Char) : List Node → List Node
  | [] => []
  | top :: rest =>
      match top.findChild s with
      | some child => child :: top :: rest
      | none =>
          if s == root.value && nodeBEq top root then top :: rest
          else recoverySearch root s rest

/-- One step of Converter.run's token loop for a freshly read string (lines
649-707): crash models a Python exception escaping set_value; needClose is the
leaf-value case in which run immediately reads one more string as the expected
closing tag (the stack still holds the leaf; closeStep below pops it). -/
inductive StepRes where
  | crash
  | cont (st : RunState)
  | needClose (top : Node) (st : RunState)
deriving DecidableEq

def convStep (root : Node) (s : List Char) (st : RunState) : StepRes :=
  match st.stack with
  | top :: stackRest =>
    let c1 := st.counter + 1
    if s == matching_tag top.value then
      let objs := if top.value == root.value then st.objects ++ [st.current] else st.objects
      .cont { st with counter := c1, stack := stackRest, objects := objs }
    else if 2 < s.length && s[1]? == some '/' then
      let d := st.diags ++ [CDiag.notProperClosing c1 top.value s]
      .cont { st with counter := c1, diags := d }
    else if top.hasChild then
      match top.findChild s with
      | some child => .cont { st with counter := c1, stack := child :: top :: stackRest }
      | none =>
          if top.value == s then
            .cont { st with counter := c1, diags := st.diags ++ [CDiag.reopened c1 s] }
          else
            let d := st.diags ++ [CDiag.notBelong c1 top.value s]
            .cont { st with counter := c1, diags := d, stack := recoverySearch root s stackRest }
    else
      if s.head? == some '<' then
        let d := st.diags ++ [CDiag.foundTagInsteadOfValue c1 s]
        .cont { st with counter := c1, diags := d, stack := recoverySearch root s stackRest }
      else
        match st.current.set_value top.value s with
        | none => .crash
        | some (cur2, _, msgs) =>
            let d := st.diags ++ msgs.map (CDiag.fromSetValue c1)
            .needClose top { st with counter := c1, current := cur2, diags := d }
  | [] =>
    let c1 := st.counter + 1
    if s == root.value then
      .cont { st with counter := c1, stack := [root], current := XMLObject.init root }
    else
      let d := st.diags ++ [CDiag.textBeforeRoot c1 root.value s]
      .cont { st with counter := c1, diags := d }

/-- The closing-tag read that follows a value assignment (lines 692-699): pop
either way, with a diagnostic when the tag does not match. -/
def closeStep (top : Node) (ct : List Char) (st : RunState) : RunState :=
  if ct == matching_tag top.value then
    { st with counter := st.counter + 1, stack := st.stack.tail }
  else
    let d := st.diags ++ [CDiag.notProperClosing (st.counter + 1) top.value ct]
    { st with counter := st.counter + 1, stack := st.stack.tail, diags := d }

/-- Embedding of Converter.run's token loop (lines 648-707), sequentialized:
the producer/consumer queue is modeled by the token list it carries (the
Python queue is FIFO, so the Converter sees exactly this sequence; the model
corresponds to schedules in which read_string finds the next token available,
in particular to the run in which the Parser finishes first). After a value is
assigned, the next token is consumed as the expected closing tag; at end of
stream there is none and the loop terminates with the leaf still on the
stack, as in the source. -/
def convRun (root : Node) : List (List Char) → RunState → Option RunState
  | [], st => some st
  | s :: rest, st =>
    match convStep root s st with
    | .crash => none
    | .cont st2 => convRun root rest st2
    | .needClose top st2 =>
      match rest with
      | [] => some st2
      | ct :: rest2 => convRun root rest2 (closeStep top ct st2)

/- The Serializer (Converter.convert, lines 564-612, and flush, 534-562). -/

/-- The diagnostics Converter.convert sends through obj_error. -/
inductive ODiag where
  | dupName (number : Nat) (name : List Char)
  | nameNotSet (number : Nat)
  | requiredMissing (number : Nat)
  | notInt (number : Nat) (value : List Char)
deriving DecidableEq

def jsonOpen : List Char := str "\x7b\n"
def jsonClose : List Char := str "\x7d"
def closerLine : List Char := str "\t \x7d,\n"

/-- The object header line convert puts (line 602). -/
def headerLine (nm : List Char) : List Char :=
  str "\t \"" ++ nm ++ str "\": \x7b\n"

/-- The field line convert puts (lines 604-605): quoted iff type is string. -/
def fieldLine (fn ft fv : List Char) : List Char :=
  str "\t\t\"" ++ fn ++ str "\": " ++ (if ft == str "string" then str "\"" else []) ++
    fv ++ (if ft == str "string" then str "\"" else []) ++ str ",\n"

/-- Embedding of the while-loop of Converter.convert (lines 586-605). The
Python loop is unbounded; on every object whose slot layout comes from the
bundled schema the loop index strictly increases, so the fuel tags.length + 1
supplied by convertObj makes the model agree with the source on all such
objects (fieldLoop_shaped below computes it). Returns the lines put (the
header is put together with the first valid group), the diagnostics, and the
final correct_object flag. -/
def fieldLoop (o : XMLObject) (nm : List Char) (num : Nat) :
    Nat → Int → Bool → List (List Char) × List ODiag × Bool
  | 0, _, correct => ([], [], correct)
  | fuel + 1, index, correct =>
    if index == -1 then ([], [], correct)
    else
      let r1 := o.get_value nameT (index + 1)
      if r1.2 == -1 then ([], [], correct)
      else
        let r2 := o.get_value typeT (r1.2 + 1)
        let r3 := o.get_value valueT (r2.2 + 1)
        match r1.1, r2.1, r3.1 with
        | some fn, some ft, some fv =>
            if ft == str "int" && !pyIsDigit fv then
              let r := fieldLoop o nm num fuel r3.2 correct
              (r.1, .notInt num fv :: r.2.1, r.2.2)
            else
              let r := fieldLoop o nm num fuel r3.2 true
              ((if correct then [fieldLine fn ft fv]
                else [headerLine nm, fieldLine fn ft fv]) ++ r.1,
               r.2.1, r.2.2)
        | _, _, _ =>
            let r := fieldLoop o nm num fuel r3.2 correct
            (r.1, .requiredMissing num :: r.2.1, r.2.2)

/-- Embedding of the per-object part of Converter.convert (lines 578-610):
duplicate-name check, the field-group loop, the closing line when any group
was emitted, and the name reservation. Returns lines, diagnostics, and the
updated object_names. -/
def convertObj (o : XMLObject) (num : Nat) (names : List (List Char)) :
    List (List Char) × List ODiag × List (List Char) :=
  let r0 := o.get_value objNameT 0
  match r0.1 with
  | some nm =>
      if names.contains nm then ([], [.dupName num nm], names)
      else
        let r := fieldLoop o nm num (o.tags.length + 1) r0.2 false
        if r.2.2 then (r.1 ++ [closerLine], r.2.1, names ++ [nm])
        else (r.1, r.2.1, names)
  | none => ([], [.nameNotSet num], names)

/-- The fold of convertObj over the object list (lines 576-610): threads the
object number and object_names. -/
def convertList : List XMLObject → Nat → List (List Char) → List (List Char) × List ODiag
  | [], _, _ => ([], [])
  | o :: os, num, names =>
      let r := convertObj o (num + 1) names
      let rs := convertList os (num + 1) r.2.2
      (r.1 ++ rs.1, r.2.1 ++ rs.2)

/-- Converter.convert (lines 564-612): the full JSON line queue. -/
def convertLines (objs : List XMLObject) : List (List Char) :=
  jsonOpen :: (convertList objs 0 []).1 ++ [jsonClose]

def convertDiags (objs : List XMLObject) : List ODiag :=
  (convertList objs 0 []).2

/- Converter.flush (lines 534-562). -/

inductive FDiag where
  | nothingToWrite
  | bodyEmpty
deriving DecidableEq

/-- The no_trailing_comma list of flush (line 549). -/
def no_trailing_comma : List (List Char) := [jsonClose, closerLine]

/-- Python str.replace(",", "", count) for nonnegative count: removes the
first count commas. -/
def replaceCommaN : List Char → Nat → List Char
  | l, 0 => l
  | [], _ + 1 => []
  | c :: cs, n + 1 => if c = ',' then replaceCommaN cs n else c :: replaceCommaN cs (n + 1)

/-- Python str.replace(",", "", count): a negative count removes all commas. -/
def pyReplaceComma (s : List Char) (count : Int) : List Char :=
  if count < 0 then s.filter (fun c => c ≠ ',')
  else replaceCommaN s count.toNat

/-- The comma-stripping flush applies to a line whose successor is a closing
delimiter (line 556): string1.replace(",", "", len(string1) - 2). -/
def stripLine (s : List Char) : List Char := pyReplaceComma s ((s.length : Int) - 2)

/-- The write loop of flush (lines 552-557): writes the pending line, stripped
when the line after it is in no_trailing_comma, then writes the final line. -/
def flushLoop : List Char → List (List Char) → List (List Char)
  | s2, [] => [s2]
  | s2, x :: rest =>
      (if no_trailing_comma.contains x then stripLine s2 else s2) :: flushLoop x rest

/-- Embedding of Converter.flush (lines 534-562): the written lines (none when
nothing is written) and flush's own diagnostics. An empty queue yields the
"Nothing to write" diagnostic; a two-line queue yields the "JSON body is
empty" diagnostic and no write; a one-line queue would block Python forever on
the second get (convert always yields at least two lines, so that case is
unreachable and modeled as no write). Write failures (IOError) are resource
conditions outside the model. -/
def flushResult (json : List (List Char)) : Option (List (List Char)) × List FDiag :=
  match json with
  | [] => (none, [.nothingToWrite])
  | [_] => (none, [])
  | s1 :: s2 :: rest =>
      if rest.isEmpty then (none, [.bodyEmpty])
      else (some (s1 :: flushLoop s2 rest), [])

/- The pipeline as assembled at the bottom of the file (lines 722-740). -/

def parserSchema : LexSchema := LexSchema.ofNode objectNode

/-- The initial Converter state (lines 489-497). -/
def initialState : RunState :=
  { stack := [], current := XMLObject.init objectNode, objects := [],
    counter := 0, diags := [] }

/-- The whole Parser run on an input: fuel 2|input|+1 strictly dominates the
number of reading steps, each of which consumes input. -/
def lexAll (input : List Char) : List (List Char) × List PDiag :=
  lexRun parserSchema (2 * input.length + 1) input false 0

def pipelineRun (input : List Char) : Option RunState :=
  convRun objectNode (lexAll input).1 initialState

/-- Converter.run's final serialization phase (lines 708-710): convert and
flush happen only when at least one object was completed. -/
def pipelineWritten (input : List Char) : Option (List (List Char)) :=
  match pipelineRun input with
  | none => none
  | some st =>
      if 0 < st.objects.length then (flushResult (convertLines st.objects)).1
      else none

/-- Converter.run's serialization phase (lines 708-710) with flush's outcome
made explicit: the written lines, convert's diagnostics, flush's diagnostics.
When no object was completed nothing runs at all. -/
def runSerialize (objs : List XMLObject) :
    Option (List (List Char)) × List ODiag × List FDiag :=
  if 0 < objs.length then
    ((flushResult (convertLines objs)).1, convertDiags objs,
     (flushResult (convertLines objs)).2)
  else (none, [], [])

/-- The stopping condition of the recovery search, read off the claim wording:
a node stops the popping when its children contain the offending tag, or when
it is the root and the offending tag is the root's own tag. -/
def recoveryStop (root : Node) (s : List Char) (n : Node) : Bool :=
  (n.findChild s).isSome || (s == root.value && nodeBEq n root)

/- Shaped records: the slot layout every Record of the bundled schema has --
one obj_name slot followed by k cloned field groups (XMLObject.init gives
k = 1 and each repeatable clone in set_value appends one group). -/

abbrev Row := Option (List Char) × Option (List Char) × Option (List Char)

/-- k repetitions of the field group's leaf tags. -/
def Trep (k : Nat) : List (List Char) :=
  (List.replicate k [nameT, typeT, valueT]).flatten

/-- The value rows of a list of field groups. -/
def Vg (gs : List Row) : List (Option (List Char)) :=
  (gs.map (fun g => [g.1, g.2.1, g.2.2])).flatten

/-- A Record over the bundled schema: name slot plus k field groups. -/
def mkShaped (nm : Option (List Char)) (gs : List Row) : XMLObject :=
  { structNode := objectNode, tags := objNameT :: Trep gs.length, values := nm :: Vg gs }

/- Spec-side rendering of one object, used to state what convert produces on
   shaped records (proved against fieldLoop/convertObj below). -/

/-- The output line a field group contributes, none when it is skipped. -/
def groupLineOf (g : Row) : Option (List Char) :=
  match g with
  | (some fn, some ft, some fv) =>
      if ft == str "int" && !pyIsDigit fv then none
      else some (fieldLine fn ft fv)
  | _ => none

/-- The diagnostic a field group contributes, none when it is emitted. -/
def groupDiagOf (num : Nat) (g : Row) : Option ODiag :=
  match g with
  | (some _, some ft, some fv) =>
      if ft == str "int" && !pyIsDigit fv then some (.notInt num fv) else none
  | _ => some (.requiredMissing num)

/-- The lines convert emits for one named object with groups gs. -/
def renderObjLines (nm : List Char) (gs : List Row) : List (List Char) :=
  let valid := gs.filterMap groupLineOf
  if valid.isEmpty then [] else headerLine nm :: valid ++ [closerLine]

/-- The diagnostics convert emits for one named, non-duplicate object. -/
def renderObjDiags (num : Nat) (gs : List Row) : List ODiag :=
  gs.filterMap (groupDiagOf num)

/-- The while-loop of convert replayed directly on the group rows; the fuelled
fieldLoop on a shaped record computes exactly this (fieldLoop_shaped). -/
def fieldLoopSpec (nm : List Char) (num : Nat) :
    List Row → Bool → List (List Char) × List ODiag × Bool
  | [], c => ([], [], c)
  | (some fn, some ft, some fv) :: gs, c =>
      if ft == str "int" && !pyIsDigit fv then
        let r := fieldLoopSpec nm num gs c
        (r.1, .notInt num fv :: r.2.1, r.2.2)
      else
        let r := fieldLoopSpec nm num gs true
        ((if c then [fieldLine fn ft fv] else [headerLine nm, fieldLine fn ft fv]) ++ r.1,
         r.2.1, r.2.2)
  | g :: gs, c =>
      match g with
      | (some _, some _, some _) => ([], [], c)
      | _ =>
          let r := fieldLoopSpec nm num gs c
          (r.1, .requiredMissing num :: r.2.1, r.2.2)

/- The trailing-separator scan for claim C4: no written line that still ends
   in ",\n" may immediately precede a closing structural delimiter. -/

/-- The stripped closing line "\t }\n" as flush writes it for the last block. -/
def strippedCloser : List Char := str "\t \x7d\n"

/-- Does the line end in ",\n" (a dangling list separator)? -/
def endsCommaNL (l : List Char) : Bool :=
  match l.reverse with
  | c1 :: c2 :: _ => c1 == '\n' && c2 == ','
  | _ => false

/-- The closing structural delimiters that can appear in the written output. -/
def isCloserLine (l : List Char) : Bool :=
  l == jsonClose || l == closerLine || l == strippedCloser

/-- Pairwise scan: the first argument is the previously written line. -/
def noCommaPairs : List Char → List (List Char) → Bool
  | _, [] => true
  | a, b :: r => (!isCloserLine b || !endsCommaNL a) && noCommaPairs b r

/-- No written line ending in ",\n" immediately precedes a closing delimiter. -/
def noCommaBeforeCloser : List (List Char) → Bool
  | [] => true
  | a :: r => noCommaPairs a r

/- Canonical well-formed input and its tokens, for claim C1: the generator of
   input streams in which every tag is properly nested and matched. Quantifying
   over the instance data quantifies over all well-formed streams (modulo
   inter-tag whitespace, which the program ignores). -/

structure CGroup where
  fname : List Char
  ftype : List Char
  fvalue : List Char
deriving DecidableEq

structure CInst where
  iname : List Char
  groups : List CGroup
deriving DecidableEq

def objectO : List Char := str "<object>"
def objectC : List Char := str "</object>"
def objNameC : List Char := str "</obj_name>"
def fieldO : List Char := str "<field>"
def fieldC : List Char := str "</field>"
def nameC : List Char := str "</name>"
def typeC : List Char := str "</type>"
def valueC : List Char := str "</value>"

def groupText (g : CGroup) : List Char :=
  fieldO ++ nameT ++ g.fname ++ nameC ++ typeT ++ g.ftype ++ typeC ++
    valueT ++ g.fvalue ++ valueC ++ fieldC

def instText (i : CInst) : List Char :=
  objectO ++ objNameT ++ i.iname ++ objNameC ++ (i.groups.map groupText).flatten ++ objectC

def canonicalText (insts : List CInst) : List Char := (insts.map instText).flatten

def groupTokens (g : CGroup) : List (List Char) :=
  [fieldO, nameT, g.fname, nameC, typeT, g.ftype, typeC, valueT, g.fvalue, valueC, fieldC]

def instTokens (i : CInst) : List (List Char) :=
  objectO :: objNameT :: i.iname :: objNameC :: (i.groups.map groupTokens).flatten ++ [objectC]

def canonTokens (insts : List CInst) : List (List Char) := (insts.map instTokens).flatten

/-- A character the Lexer accepts inside a value: printable and not illegal. -/
def legalChar (c : Char) : Bool := pyIsPrintableChar c && !illegal_characters.contains c

/-- A value string the schema and Lexer accept: nonempty, all characters
legal. The claim calls these the legal values. -/
def legalStr (v : List Char) : Bool := !v.isEmpty && v.all legalChar

/-- Legality of one field group under the schema: name and value legal, type
in the enumerated domain. -/
def legalGroup (g : CGroup) : Bool :=
  legalStr g.fname && legalStr g.fvalue &&
    (g.ftype == str "int" || g.ftype == str "string")

/-- Claim C1's hypothesis on one instance: every value legal (the canonical
text already has every tag properly nested and matched). -/
def legalInst (i : CInst) : Bool := legalStr i.iname && i.groups.all legalGroup

/-- A legal value that the Converter also accepts as a value token: its second
character must not be '/' (length > 2), else run misreads it as a closing tag
(line 656). -/
def plainValue (v : List Char) : Bool :=
  legalStr v && !(decide (2 < v.length) && v[1]? == some '/')

/-- The amended per-group hypothesis: name and value plain, type enumerated,
int values all digits, and no commas in name or value (the comma-stripping in
flush removes every comma of the last emitted field line of a block). -/
def legalGroupA (g : CGroup) : Bool :=
  plainValue g.fname && plainValue g.fvalue &&
    (g.ftype == str "int" || g.ftype == str "string") &&
    (g.ftype == str "string" || pyIsDigit g.fvalue) &&
    !g.fname.contains ',' && !g.fvalue.contains ','

/-- The amended per-instance hypothesis: plain name, at least one field group,
all groups amended-legal. -/
def legalInstA (i : CInst) : Bool :=
  plainValue i.iname && !i.groups.isEmpty && i.groups.all legalGroupA

/-- The Record the Validator completes for one canonical instance. -/
def rowOf (g : CGroup) : Row := (some g.fname, some g.ftype, some g.fvalue)

def recordOf (i : CInst) : XMLObject := mkShaped (some i.iname) (i.groups.map rowOf)

/- The expected written output for claim C1: one entry per instance keyed by
   its name; every field line quoted iff the type is string; the last field
   line of each entry and the closing line of the last entry lose their
   trailing comma. -/

/-- A field line with its trailing comma removed, as flush writes the last
field line of each object block (comma-free name and value). -/
def fieldLineLast (fn ft fv : List Char) : List Char :=
  str "\t\t\"" ++ fn ++ str "\": " ++ (if ft == str "string" then str "\"" else []) ++
    fv ++ (if ft == str "string" then str "\"" else []) ++ str "\n"

def lineOfC (g : CGroup) : List Char := fieldLine g.fname g.ftype g.fvalue

def writtenFields : List CGroup → List (List Char)
  | [] => []
  | [g] => [fieldLineLast g.fname g.ftype g.fvalue]
  | g :: rest => lineOfC g :: writtenFields rest

def writtenBlock (isLast : Bool) (i : CInst) : List (List Char) :=
  headerLine i.iname :: writtenFields i.groups ++
    [if isLast then strippedCloser else closerLine]

def writtenBlocks : List CInst → List (List Char)
  | [] => []
  | [i] => writtenBlock true i
  | i :: rest => writtenBlock false i ++ writtenBlocks rest

def writtenRender (insts : List CInst) : List (List Char) :=
  jsonOpen :: writtenBlocks insts ++ [jsonClose]

/-- A line of the shape convert emits for a field group. -/
def FieldShape (l : List Char) : Prop := ∃ fn ft fv, l = fieldLine fn ft fv

/-- The suffix grammar of convert's line queue as flush consumes it: a run of
object blocks (header, nonempty fields, closing line) finished by the final
"}" line. -/
inductive BlocksTail : List (List Char) → Prop where
  | done : BlocksTail [jsonClose]
  | block (nmh f0 : List Char) (fs rest : List (List Char)) :
      FieldShape f0 → (∀ l ∈ fs, FieldShape l) → BlocksTail rest →
      BlocksTail (headerLine nmh :: (f0 :: fs ++ closerLine :: rest))

/- Claims C10 and C8: matching_tag and Parser.error. -/

/-- Claim C10 (counterexample): the string "<//>" has length at least two,
begins with '<' and ends with '>', yet applying the matching-tag computation
twice yields "<>", not the original string, so the claimed involution fails. -/
theorem claimC10_counterexample :
    2 ≤ (str "<//>").length ∧ (str "<//>").head? = some '<' ∧
      (str "<//>").getLast? = some '>' ∧
      matching_tag (matching_tag (str "<//>")) ≠ str "<//>" := by
  decide

/-- Claim C10 (amended): for every string t of length at least two that begins
with '<', ends with '>', and does not begin with "<//", applying the
matching-tag computation twice returns t itself. -/
theorem claimC10_amended (t : List Char) (hlen : 2 ≤ t.length)
    (hhead : t.head? = some '<') (hlast : t.getLast? = some '>')
    (hslash : t[1]? = some '/' → t[2]? ≠ some '/') :
    matching_tag (matching_tag t) = t := by
  cases t with
  | nil => simp at hhead
  | cons a rest =>
    have ha : a = '<' := by simpa using hhead
    subst ha
    cases rest with
    | nil => simp at hlen
    | cons c rest2 =>
      by_cases hc : c = '/'
      · subst hc
        cases rest2 with
        | nil => simp [List.getLast?] at hlast
        | cons d rest3 =>
          have hd : ¬(d = '/') := by
            intro h
            exact hslash rfl (by simp [h])
          simp [matching_tag, hd]
      · simp [matching_tag, hc]

/-- Claim C10 (witness): the amended involution at the closing tag "</x>". -/
theorem claimC10_witness :
    2 ≤ (str "</x>").length ∧ matching_tag (matching_tag (str "</x>")) = str "</x>" :=
  ⟨by decide, claimC10_amended (str "</x>") (by decide) (by decide) (by decide) (by decide)⟩

/-- Claim C8 (counterexample): lexing "x<object>" emits one diagnostic, for
the misplaced text "x" with char_counter 2 (the 'x' and the lookahead '<'),
but the reported offset is 0, not 2 - len("x") = 1: the clamp in Parser.error
compares char_counter against the message length, not the token length. -/
theorem claimC8_counterexample :
    (lexAll (str "x<object>")).2 = [mkPDiag misplacedTextMsg (str "x") 2] ∧
      pyErrorNumber misplacedTextMsg (str "x") 2 = 0 ∧
      (2 : Int) - (str "x").length ≠ 0 := by
  decide

/-- Claim C8 (amended): the reported offset equals n minus the length of the
offending token t whenever n is at least the length of the diagnostic message;
when the message is longer than n the offset is clamped to 0; and it is never
negative provided n is at least the length of t (true of every diagnostic the
lexer emits, since t was consumed from the input). -/
theorem claimC8_amended (message t : List Char) (n : Nat) :
    (message.length ≤ n → pyErrorNumber message t n = (n : Int) - t.length) ∧
      (t.length ≤ n → 0 ≤ pyErrorNumber message t n) := by
  unfold pyErrorNumber
  constructor
  · intro h
    rw [if_neg (by omega)]
  · intro h
    split
    · exact le_refl 0
    · omega

/-- Claim C8 (witness): the amended offset rule at the incorrect-tag message
with token "<zz>" and 19 characters consumed. -/
theorem claimC8_witness :
    pyErrorNumber incorrectTagMsg (str "<zz>") 19 = (19 : Int) - (str "<zz>").length ∧
      0 ≤ pyErrorNumber incorrectTagMsg (str "<zz>") 19 :=
  ⟨(claimC8_amended incorrectTagMsg (str "<zz>") 19).1 (by decide),
   (claimC8_amended incorrectTagMsg (str "<zz>") 19).2 (by decide)⟩

/- Claim C9: the parallel-sequence invariant length(tags) = length(values). -/

theorem assign_fst_tags (o : XMLObject) (node : Node) (i : Nat) (tag v : List Char) :
    (o.assign node i tag v).1.tags = o.tags := by
  unfold XMLObject.assign
  split <;> (try split) <;> rfl

theorem assign_fst_values_length (o : XMLObject) (node : Node) (i : Nat) (tag v : List Char) :
    (o.assign node i tag v).1.values.length = o.values.length := by
  unfold XMLObject.assign
  split <;> (try split) <;> simp

theorem buildAppend_length (o : XMLObject) (n : Node)
    (h : o.tags.length = o.values.length) :
    (o.buildAppend n).tags.length = (o.buildAppend n).values.length := by
  simp [XMLObject.buildAppend, h]

/-- Claim C9: for every Record, the slot-tag sequence and the value sequence
have equal length after construction, and set_value preserves the equality on
every call that completes (including the repeatable-clone and the
error-reporting paths). -/
theorem claimC9 :
    (∀ s : Node, (XMLObject.init s).tags.length = (XMLObject.init s).values.length) ∧
      (∀ (o : XMLObject) (tag value : List Char) (r : XMLObject × Bool × List SVErr),
        o.tags.length = o.values.length → o.set_value tag value = some r →
        r.1.tags.length = r.1.values.length) := by
  constructor
  · intro s
    simp [XMLObject.init]
  · intro o tag value r hlen hsv
    unfold XMLObject.set_value at hsv
    split at hsv
    · exact absurd hsv (by simp)
    · split at hsv
      · exact absurd hsv (by simp)
      · split at hsv
        · split at hsv
          · split at hsv
            · exact absurd hsv (by simp)
            · rw [Option.some_inj] at hsv
              subst hsv
              rw [assign_fst_tags, assign_fst_values_length]
              exact buildAppend_length o _ hlen
          · rw [Option.some_inj] at hsv
            subst hsv
            exact hlen
        · exact absurd hsv (by simp)
        · rw [Option.some_inj] at hsv
          subst hsv
          exact hlen
        · exact absurd hsv (by simp)
        · rw [Option.some_inj] at hsv
          subst hsv
          rw [assign_fst_tags, assign_fst_values_length]
          exact hlen

/-- Claim C9 (witness): the invariant at the freshly built Record of the
bundled schema and at a completed set_value call on it. -/
theorem claimC9_witness :
    (XMLObject.init objectNode).tags.length = (XMLObject.init objectNode).values.length ∧
      (XMLObject.init objectNode).set_value nameT (str "x") =
        some (⟨objectNode, [objNameT, nameT, typeT, valueT],
               [none, some (str "x"), none, none]⟩, true, []) ∧
      (⟨objectNode, [objNameT, nameT, typeT, valueT],
         [none, some (str "x"), none, none]⟩ : XMLObject).tags.length =
        (⟨objectNode, [objNameT, nameT, typeT, valueT],
           [none, some (str "x"), none, none]⟩ : XMLObject).values.length :=
  ⟨claimC9.1 objectNode,
   by decide,
   claimC9.2 (XMLObject.init objectNode) nameT (str "x")
     (⟨objectNode, [objNameT, nameT, typeT, valueT],
       [none, some (str "x"), none, none]⟩, true, [])
     (claimC9.1 objectNode) (by decide)⟩

/- Claim C3: the repeatable clone in set_value. -/

/-- Membership in a Forest. -/
def Forest.mem : Forest → Node → Prop
  | .nil, _ => False
  | .cons c f, n => n = c ∨ Forest.mem f n

mutual
theorem tagToNodeP_sound (p : Option Node) (n : Node) (tag : List Char)
    (node : Node) (q : Option Node) (h : tagToNodeP p n tag = some (node, q)) :
    node.value = tag ∧
      ((node = n ∧ q = p) ∨ ∃ par, q = some par ∧ par.children.mem node) := by
  cases n with
  | mk v r a c =>
    unfold tagToNodeP at h
    by_cases hv : (v == tag) = true
    · rw [if_pos hv] at h
      have h2 : node = Node.mk v r a c ∧ q = p := by
        have h3 := Option.some.inj h
        rw [Prod.ext_iff] at h3
        exact ⟨h3.1.symm, h3.2.symm⟩
      refine ⟨?_, Or.inl h2⟩
      rw [h2.1]
      exact eq_of_beq hv
    · rw [if_neg hv] at h
      have hs := tagToNodePF_sound (Node.mk v r a c) c tag node q (fun m hm => hm) h
      exact ⟨hs.1, Or.inr hs.2⟩

theorem tagToNodePF_sound (parent : Node) (f : Forest) (tag : List Char)
    (node : Node) (q : Option Node)
    (hsub : ∀ m : Node, f.mem m → parent.children.mem m)
    (h : tagToNodePF parent f tag = some (node, q)) :
    node.value = tag ∧ ∃ par, q = some par ∧ par.children.mem node := by
  cases f with
  | nil =>
    unfold tagToNodePF at h
    exact absurd h (by simp)
  | cons c rest =>
    unfold tagToNodePF at h
    cases hc : tagToNodeP (some parent) c tag with
    | some r0 =>
      rw [hc] at h
      have hr0 : r0 = (node, q) := Option.some.inj h
      subst hr0
      have hs := tagToNodeP_sound (some parent) c tag node q hc
      rcases hs.2 with ⟨hn, hq⟩ | ⟨par, hq, hmem⟩
      · subst hn
        exact ⟨hs.1, parent, hq, hsub node (Or.inl rfl)⟩
      · exact ⟨hs.1, par, hq, hmem⟩
    | none =>
      rw [hc] at h
      exact tagToNodePF_sound parent rest tag node q (fun m hm => hsub m (Or.inr hm)) h
end

theorem leafTags_of_leaf (n : Node) (h : n.children = .nil) : leafTags n = [n.value] := by
  cases n with
  | mk v r a c =>
    have hc : c = Forest.nil := h
    subst hc
    rfl

theorem mem_leafTagsF (f : Forest) (n : Node) (hm : f.mem n) (hleaf : n.children = .nil) :
    n.value ∈ leafTagsF f := by
  cases f with
  | nil => exact absurd hm (by simp [Forest.mem])
  | cons c rest =>
    rcases hm with rfl | hm
    · rw [leafTagsF, leafTags_of_leaf n hleaf]
      simp
    · rw [leafTagsF]
      exact List.mem_append_right _ (mem_leafTagsF rest n hm hleaf)

theorem mem_leafTags_parent (par : Node) (n : Node) (hm : par.children.mem n)
    (hleaf : n.children = .nil) : n.value ∈ leafTags par := by
  cases par with
  | mk v r a c =>
    cases c with
    | nil => exact absurd hm (by simp [Node.children, Forest.mem])
    | cons c0 f0 =>
      rw [show leafTags (Node.mk v r a (Forest.cons c0 f0)) = leafTagsF (Forest.cons c0 f0) from rfl]
      exact mem_leafTagsF _ n hm hleaf

theorem last_index_append_mem (A B : List (List Char)) (v : List Char) (hv : v ∈ B) :
    ∃ j, last_index (A ++ B) v = some j ∧ A.length ≤ j ∧ j < A.length + B.length := by
  unfold last_index
  rw [List.reverse_append]
  have hex : ∃ x, x ∈ B.reverse ∧ (x == v) = true := ⟨v, by simpa using hv, by simp⟩
  have h1 : B.reverse.findIdx? (· == v) = some (B.reverse.findIdx (· == v)) :=
    List.findIdx?_eq_some_of_exists hex
  have hk : B.reverse.findIdx (· == v) < B.length := by
    have h2 := (List.findIdx?_eq_some_iff_findIdx_eq.mp h1).1
    simpa using h2
  rw [List.findIdx?_append, h1]
  refine ⟨(A ++ B).length - B.reverse.findIdx (· == v) - 1, by simp, ?_, ?_⟩
  · simp only [List.length_append]
    omega
  · simp only [List.length_append]
    have hB : 0 < B.length := List.length_pos.mpr (by rintro rfl; exact absurd hv (by simp))
    omega

/-- Claim C3: for every Record satisfying the length invariant and every leaf
tag whose schema parent is repeatable, a set_value call that finds the last
slot for the tag already filled appends one fresh unset slot instance of the
parent's entire leaf subtree and stores the new value in the newly appended
slot (an index at or beyond the old length), leaving the previously stored
value in place and reporting no error: two occurrences of the repeatable group
yield two independently stored values. -/
theorem claimC3 (o : XMLObject) (tag value : List Char) (i : Nat) (w : List Char)
    (node parent : Node)
    (hlen : o.tags.length = o.values.length)
    (hfind : tagToNodeP none o.structNode tag = some (node, some parent))
    (hleaf : node.children = .nil)
    (hrep : parent.repeatable = true)
    (hlast : last_index o.tags tag = some i)
    (hslot : o.values[i]? = some (some w))
    (hallow : ∀ av, node.allowed_values = some av → av.contains value = true) :
    ∃ j, o.tags.length ≤ j ∧
      o.set_value tag value =
        some ({ o with tags := o.tags ++ leafTags parent,
                       values := (o.values ++ List.replicate (leafTags parent).length none).set j
                         (some value) },
              true, []) ∧
      ((o.values ++ List.replicate (leafTags parent).length none).set j
          (some value))[i]? = some (some w) ∧
      ((o.values ++ List.replicate (leafTags parent).length none).set j
          (some value))[j]? = some (some value) := by
  have hsound := tagToNodeP_sound none o.structNode tag node (some parent) hfind
  have hmem : parent.children.mem node := by
    rcases hsound.2 with ⟨_, hq⟩ | ⟨par, hq, hmem⟩
    · exact absurd hq (by simp)
    · rw [Option.some.inj hq]
      exact hmem
  have htag : tag ∈ leafTags parent := by
    rw [← hsound.1]
    exact mem_leafTags_parent parent node hmem hleaf
  obtain ⟨j, hj, hjge, hjlt⟩ := last_index_append_mem o.tags (leafTags parent) tag htag
  have hilt : i < o.values.length := by
    by_contra hcon
    rw [List.getElem?_eq_none (by omega)] at hslot
    exact absurd hslot (by simp)
  have hne : i ≠ j := by omega
  refine ⟨j, by omega, ?_, ?_, ?_⟩
  · have hj2 : last_index (o.buildAppend parent).tags tag = some j := hj
    simp only [XMLObject.set_value, hlast, hslot, hfind, hrep, if_true, hj2]
    unfold XMLObject.assign
    cases hav : node.allowed_values with
    | none => simp only [hav]; rfl
    | some av => simp only [hav, hallow av hav, if_true]; rfl
  · rw [List.getElem?_set_ne hne.symm, List.getElem?_append]
    rw [if_pos hilt]
    exact hslot
  · refine List.getElem?_set_eq_of_lt (some value) ?_
    simp only [List.length_append, List.length_replicate]
    omega

/-- Claim C3 (witness): the clone at a Record of the bundled schema whose
single field group already holds a name value. -/
theorem claimC3_witness :
    (last_index
        (⟨objectNode, [objNameT, nameT, typeT, valueT],
          [none, some (str "x1"), none, none]⟩ : XMLObject).tags nameT = some 1 ∧
      (⟨objectNode, [objNameT, nameT, typeT, valueT],
        [none, some (str "x1"), none, none]⟩ : XMLObject).values[1]? = some (some (str "x1"))) ∧
      (∃ j, (⟨objectNode, [objNameT, nameT, typeT, valueT],
              [none, some (str "x1"), none, none]⟩ : XMLObject).tags.length ≤ j ∧
        (⟨objectNode, [objNameT, nameT, typeT, valueT],
          [none, some (str "x1"), none, none]⟩ : XMLObject).set_value nameT (str "x2") =
          some ({ (⟨objectNode, [objNameT, nameT, typeT, valueT],
                    [none, some (str "x1"), none, none]⟩ : XMLObject) with
                  tags := [objNameT, nameT, typeT, valueT] ++ leafTags fieldNode,
                  values := ([none, some (str "x1"), none, none] ++
                      List.replicate (leafTags fieldNode).length none).set j (some (str "x2")) },
                true, []) ∧
        (([none, some (str "x1"), none, none] ++
            List.replicate (leafTags fieldNode).length none).set j
            (some (str "x2")))[1]? = some (some (str "x1")) ∧
        (([none, some (str "x1"), none, none] ++
            List.replicate (leafTags fieldNode).length none).set j
            (some (str "x2")))[j]? = some (some (str "x2"))) :=
  ⟨⟨by decide, by decide⟩,
   claimC3 ⟨objectNode, [objNameT, nameT, typeT, valueT], [none, some (str "x1"), none, none]⟩
     nameT (str "x2") 1 (str "x1") nameNode fieldNode (by decide) (by decide) (by decide)
     (by decide) (by decide) (by decide) (fun av h => Option.noConfusion h)⟩

/- Claim C2: the recovery search of Converter.run. -/

/-- Claim C2 (counterexample): with the container field on top of the stack
inside a record, the token "</field>".."</object>" shaped close tag
"</object>" is neither a child of the top, nor the top itself, nor the
matching close of the top, yet the validator only emits the wrong-closing-tag
diagnostic and leaves the stack unchanged: no popping happens, because
close-shaped tokens are intercepted before the recovery search. -/
theorem claimC2_counterexample :
    Node.findChild fieldNode (str "</object>") = none ∧
      fieldNode.value ≠ str "</object>" ∧
      matching_tag fieldNode.value ≠ str "</object>" ∧
      fieldNode.hasChild = true ∧
      convRun objectNode [str "</object>"]
        ⟨[fieldNode, objectNode], XMLObject.init objectNode, [], 0, []⟩ =
        some ⟨[fieldNode, objectNode], XMLObject.init objectNode, [], 1,
              [CDiag.notProperClosing 1 (str "<field>") (str "</object>")]⟩ := by
  decide

/-- First-match characterization of the recovery search: it pops until the
first node whose children contain the offending tag (pushing that matching
child), or until the root is on top with the offending tag equal to the root's
tag (no push), and empties the stack when no node qualifies. -/
theorem recoverySearch_spec (root : Node) (s : List Char) (l : List Node) :
    (l.findIdx? (recoveryStop root s) = none ∧ recoverySearch root s l = []) ∨
      (∃ k n, l.findIdx? (recoveryStop root s) = some k ∧ l[k]? = some n ∧
        ((∃ child, n.findChild s = some child ∧
            recoverySearch root s l = child :: l.drop k) ∨
          (n.findChild s = none ∧ (s == root.value && nodeBEq n root) = true ∧
            recoverySearch root s l = l.drop k))) := by
  induction l with
  | nil => exact Or.inl ⟨by simp, rfl⟩
  | cons c rest ih =>
    cases hc : c.findChild s with
    | some child =>
      refine Or.inr ⟨0, c, ?_, by simp, Or.inl ⟨child, hc, ?_⟩⟩
      · rw [List.findIdx?_cons, if_pos (by simp [recoveryStop, hc])]
      · simp [recoverySearch, hc]
    | none =>
      cases hb : (s == root.value && nodeBEq c root) with
      | true =>
        refine Or.inr ⟨0, c, ?_, by simp, Or.inr ⟨hc, hb, ?_⟩⟩
        · rw [List.findIdx?_cons, if_pos (by simp [recoveryStop, hc, hb])]
        · simp [recoverySearch, hc, hb]
      | false =>
        have hstop : recoveryStop root s c = false := by simp [recoveryStop, hc, hb]
        have hres : recoverySearch root s (c :: rest) = recoverySearch root s rest := by
          simp [recoverySearch, hc, hb]
        have hidx : (c :: rest).findIdx? (recoveryStop root s) =
            (rest.findIdx? (recoveryStop root s)).map (· + 1) := by
          rw [List.findIdx?_cons, if_neg (by simp [hstop])]
          exact List.findIdx?_start_succ
        rcases ih with ⟨hnone, hr⟩ | ⟨k, n, hk, hn, hcase⟩
        · exact Or.inl ⟨by rw [hidx, hnone]; rfl, by rw [hres, hr]⟩
        · refine Or.inr ⟨k + 1, n, by rw [hidx, hk]; rfl, by simpa using hn, ?_⟩
          rcases hcase with ⟨child, hch, hr⟩ | ⟨hch, hbb, hr⟩
          · exact Or.inl ⟨child, hch, by rw [hres, hr]; rfl⟩
          · exact Or.inr ⟨hch, hbb, by rw [hres, hr]; rfl⟩

/-- Claim C2 (amended): whenever the validator is inside a record with a
container node on top of the depth stack and receives a token that is not
close-shaped (does not begin "</" with length over 2) and is neither a child
of the top, nor the top itself, nor the matching close of the top, it emits
exactly one diagnostic and replaces the stack below the popped top by the
recovery search's result, leaving the current Record (hence every value
already assigned into it) unchanged; and the recovery search stops at the
first popped-to ancestor whose children contain the offending tag, pushing the
matching child, or stops without pushing at the root when the offending tag
equals the root's tag, emptying the stack when no ancestor qualifies. -/
theorem claimC2_amended (root : Node) (s : List Char) (rest : List (List Char))
    (top : Node) (stackRest : List Node) (cur : XMLObject) (objs : List XMLObject)
    (cnt : Nat) (dgs : List CDiag)
    (hcont : top.hasChild = true)
    (hnotmatch : s ≠ matching_tag top.value)
    (hnotclose : ¬(2 < s.length ∧ s[1]? = some '/'))
    (hnotchild : top.findChild s = none)
    (hnottop : top.value ≠ s) :
    convRun root (s :: rest) ⟨top :: stackRest, cur, objs, cnt, dgs⟩ =
      convRun root rest
        ⟨recoverySearch root s stackRest, cur, objs, cnt + 1,
         dgs ++ [CDiag.notBelong (cnt + 1) top.value s]⟩ ∧
      ((stackRest.findIdx? (recoveryStop root s) = none ∧
          recoverySearch root s stackRest = []) ∨
        (∃ k n, stackRest.findIdx? (recoveryStop root s) = some k ∧
          stackRest[k]? = some n ∧
          ((∃ child, n.findChild s = some child ∧
              recoverySearch root s stackRest = child :: stackRest.drop k) ∨
            (n.findChild s = none ∧ (s == root.value && nodeBEq n root) = true ∧
              recoverySearch root s stackRest = stackRest.drop k)))) := by
  constructor
  · have h1 : (s == matching_tag top.value) = false := by
      simp [hnotmatch]
    have h2 : (decide (2 < s.length) && (s[1]? == some '/')) = false := by
      by_cases hl : 2 < s.length
      · have : s[1]? ≠ some '/' := fun h => hnotclose ⟨hl, h⟩
        simp [this]
      · simp [hl]
    have h3 : (top.value == s) = false := by simp [hnottop]
    have hstep : convStep root s ⟨top :: stackRest, cur, objs, cnt, dgs⟩ =
        StepRes.cont ⟨recoverySearch root s stackRest, cur, objs, cnt + 1,
          dgs ++ [CDiag.notBelong (cnt + 1) top.value s]⟩ := by
      simp [convStep, h1, h2, hcont, hnotchild, h3]
    conv_lhs => rw [convRun, hstep]
  · exact recoverySearch_spec root s stackRest

/-- Claim C2 (witness): the amended recovery at a concrete state, with field
on top of object and the misplaced tag obj_name, which resynchronizes by
popping to object and pushing its obj_name child. -/
theorem claimC2_witness :
    fieldNode.hasChild = true ∧
      Node.findChild fieldNode (str "<obj_name>") = none ∧
      convRun objectNode [str "<obj_name>"]
        ⟨[fieldNode, objectNode], XMLObject.init objectNode, [], 0, []⟩ =
        convRun objectNode []
          ⟨recoverySearch objectNode (str "<obj_name>") [objectNode],
           XMLObject.init objectNode, [], 1,
           [CDiag.notBelong 1 (str "<field>") (str "<obj_name>")]⟩ :=
  ⟨by decide, by decide,
   (claimC2_amended objectNode (str "<obj_name>") [] fieldNode [objectNode]
     (XMLObject.init objectNode) [] 0 [] (by decide) (by decide) (by decide)
     (by decide) (by decide)).1⟩

/- The serializer on shaped records: supporting computations. -/

theorem Trep_succ (k : Nat) : Trep (k + 1) = [nameT, typeT, valueT] ++ Trep k := by
  simp [Trep, List.replicate_succ]

theorem Trep_length (k : Nat) : (Trep k).length = 3 * k := by
  induction k with
  | zero => rfl
  | succ n ih =>
    rw [Trep_succ]
    simp only [List.length_append, List.length_cons, List.length_nil, ih]
    omega

theorem Trep_add (a b : Nat) : Trep (a + b) = Trep a ++ Trep b := by
  unfold Trep
  rw [List.replicate_add, List.flatten_append]

theorem Trep_drop (a b : Nat) : (Trep (a + b)).drop (3 * a) = Trep b := by
  rw [Trep_add, ← Trep_length a, List.drop_left]

theorem Vg_append (gs1 gs2 : List Row) : Vg (gs1 ++ gs2) = Vg gs1 ++ Vg gs2 := by
  simp [Vg]

theorem Vg_cons (g : Row) (gs : List Row) :
    Vg (g :: gs) = g.1 :: g.2.1 :: g.2.2 :: Vg gs := by
  simp [Vg]

theorem Vg_length (gs : List Row) : (Vg gs).length = 3 * gs.length := by
  induction gs with
  | nil => rfl
  | cons g rest ih =>
    rw [Vg_cons]
    simp only [List.length_cons, ih]
    omega


theorem tags_shaped (nm : Option (List Char)) (gpre : List Row) (g : Row) (gs : List Row) :
    (mkShaped nm (gpre ++ g :: gs)).tags =
      objNameT :: Trep (gpre.length + (1 + gs.length)) := by
  have hlen2 : (gpre ++ g :: gs).length = gpre.length + (1 + gs.length) := by
    simp
    omega
  rw [show (mkShaped nm (gpre ++ g :: gs)).tags =
      objNameT :: Trep (gpre ++ g :: gs).length from rfl, hlen2]

theorem drop_tags_shaped (gpre : List Row) (q : Nat) :
    (Trep (gpre.length + (1 + q))).drop (3 * gpre.length) =
      [nameT, typeT, valueT] ++ Trep q := by
  rw [Trep_drop, show 1 + q = q + 1 from by omega, Trep_succ]

theorem vals_shaped_getD (nm : Option (List Char)) (gpre : List Row) (g : Row)
    (gs : List Row) (r : Nat) (hr : r < 3) :
    (mkShaped nm (gpre ++ g :: gs)).values.getD (3 * gpre.length + 1 + r) none =
      (g.1 :: g.2.1 :: g.2.2 :: Vg gs).getD r none := by
  have hvals : (mkShaped nm (gpre ++ g :: gs)).values =
      nm :: (Vg gpre ++ (g.1 :: g.2.1 :: g.2.2 :: Vg gs)) := by
    rw [show (mkShaped nm (gpre ++ g :: gs)).values = nm :: Vg (gpre ++ g :: gs) from rfl,
      Vg_append, Vg_cons]
  rw [hvals, List.getD_eq_getElem?_getD,
    show 3 * gpre.length + 1 + r = (3 * gpre.length + r) + 1 from by omega,
    List.getElem?_cons_succ, List.getElem?_append,
    if_neg (by rw [Vg_length]; omega),
    show 3 * gpre.length + r - (Vg gpre).length = r from by rw [Vg_length]; omega,
    List.getD_eq_getElem?_getD]

theorem get_value_shaped_name (nm : Option (List Char)) (gpre : List Row) (g : Row)
    (gs : List Row) :
    (mkShaped nm (gpre ++ g :: gs)).get_value nameT ((3 * gpre.length + 1 : Nat) : Int) =
      (g.1, ((3 * gpre.length + 1 : Nat) : Int)) := by
  unfold XMLObject.get_value
  rw [tags_shaped]
  rw [if_neg (by simp only [List.length_cons, Trep_length]; push_cast; omega)]
  rw [Int.toNat_natCast]
  rw [show List.drop (3 * gpre.length + 1) (objNameT :: Trep (gpre.length + (1 + gs.length))) =
      [nameT, typeT, valueT] ++ Trep gs.length from by
    rw [List.drop_succ_cons, drop_tags_shaped]]
  rw [show ([nameT, typeT, valueT] ++ Trep gs.length).findIdx? (· == nameT) = some 0 from by
    simp [List.findIdx?_cons]]
  rw [show 3 * gpre.length + 1 + 0 = 3 * gpre.length + 1 + 0 from rfl]
  have hv := vals_shaped_getD nm gpre g gs 0 (by omega)
  simp only [Nat.add_zero] at hv ⊢
  rw [hv]
  simp

theorem get_value_shaped_type (nm : Option (List Char)) (gpre : List Row) (g : Row)
    (gs : List Row) :
    (mkShaped nm (gpre ++ g :: gs)).get_value typeT ((3 * gpre.length + 2 : Nat) : Int) =
      (g.2.1, ((3 * gpre.length + 2 : Nat) : Int)) := by
  unfold XMLObject.get_value
  rw [tags_shaped]
  rw [if_neg (by simp only [List.length_cons, Trep_length]; push_cast; omega)]
  rw [Int.toNat_natCast]
  rw [show List.drop (3 * gpre.length + 2) (objNameT :: Trep (gpre.length + (1 + gs.length))) =
      [typeT, valueT] ++ Trep gs.length from by
    rw [show 3 * gpre.length + 2 = (3 * gpre.length + 1) + 1 from by omega, List.drop_succ_cons,
      ← List.drop_drop, drop_tags_shaped]
    rfl]
  rw [show ([typeT, valueT] ++ Trep gs.length).findIdx? (· == typeT) = some 0 from by
    simp [List.findIdx?_cons]]
  have hv := vals_shaped_getD nm gpre g gs 1 (by omega)
  simp only [Nat.add_zero]
  rw [show 3 * gpre.length + 2 = 3 * gpre.length + 1 + 1 from by omega, hv]
  simp

theorem get_value_shaped_value (nm : Option (List Char)) (gpre : List Row) (g : Row)
    (gs : List Row) :
    (mkShaped nm (gpre ++ g :: gs)).get_value valueT ((3 * gpre.length + 3 : Nat) : Int) =
      (g.2.2, ((3 * gpre.length + 3 : Nat) : Int)) := by
  unfold XMLObject.get_value
  rw [tags_shaped]
  rw [if_neg (by simp only [List.length_cons, Trep_length]; push_cast; omega)]
  rw [Int.toNat_natCast]
  rw [show List.drop (3 * gpre.length + 3) (objNameT :: Trep (gpre.length + (1 + gs.length))) =
      [valueT] ++ Trep gs.length from by
    rw [show 3 * gpre.length + 3 = (3 * gpre.length + 2) + 1 from by omega, List.drop_succ_cons,
      show 3 * gpre.length + 2 = 3 * gpre.length + 2 from rfl,
      ← List.drop_drop, drop_tags_shaped]
    rfl]
  rw [show ([valueT] ++ Trep gs.length).findIdx? (· == valueT) = some 0 from by
    simp [List.findIdx?_cons]]
  have hv := vals_shaped_getD nm gpre g gs 2 (by omega)
  simp only [Nat.add_zero]
  rw [show 3 * gpre.length + 3 = 3 * gpre.length + 1 + 2 from by omega, hv]
  simp

theorem get_value_shaped_exit (nm : Option (List Char)) (gs : List Row) :
    (mkShaped nm gs).get_value nameT ((3 * gs.length + 1 : Nat) : Int) = (none, -1) := by
  unfold XMLObject.get_value
  rw [if_pos]
  rw [show (mkShaped nm gs).tags = objNameT :: Trep gs.length from rfl]
  simp only [List.length_cons, Trep_length]
  push_cast
  omega

theorem get_value_shaped_objname (nm : Option (List Char)) (gs : List Row) :
    (mkShaped nm gs).get_value objNameT 0 = (nm, 0) := by
  unfold XMLObject.get_value
  rw [if_neg (by
    rw [show (mkShaped nm gs).tags = objNameT :: Trep gs.length from rfl]
    simp only [List.length_cons, Trep_length]
    push_cast
    omega)]
  rw [show ((0 : Int)).toNat = 0 from rfl]
  rw [show List.drop 0 (mkShaped nm gs).tags = objNameT :: Trep gs.length from rfl]
  rw [show (objNameT :: Trep gs.length).findIdx? (· == objNameT) = some 0 from by
    simp [List.findIdx?_cons]]
  rw [show (mkShaped nm gs).values = nm :: Vg gs from rfl]
  simp

theorem natCast_beq_neg_one (m : Nat) : (((m : Nat) : Int) == -1) = false := by
  rw [beq_eq_false_iff_ne]
  omega

theorem natCast_add_one (m : Nat) : ((m : Nat) : Int) + 1 = ((m + 1 : Nat) : Int) := by
  push_cast
  ring

/-- The fuelled convert loop on a shaped record computes the direct recursion
over the group rows: entering with loop index 3·|gpre| (the position of the
previous group's value slot, or the obj_name slot for gpre = []) it processes
exactly the remaining groups. -/
theorem fieldLoop_shaped (nm2 : Option (List Char)) (nmh : List Char) (num : Nat)
    (gs : List Row) :
    ∀ (gpre : List Row) (fuel : Nat) (c : Bool), gs.length < fuel →
    fieldLoop (mkShaped nm2 (gpre ++ gs)) nmh num fuel ((3 * gpre.length : Nat) : Int) c =
      fieldLoopSpec nmh num gs c := by
  induction gs with
  | nil =>
    intro gpre fuel c hfuel
    match fuel, hfuel with
    | f + 1, _ =>
      rw [fieldLoop]
      rw [if_neg (by simp; omega)]
      rw [natCast_add_one]
      rw [show gpre ++ ([] : List Row) = gpre from by simp]
      rw [get_value_shaped_exit nm2 gpre]
      rw [if_pos (by simp)]
      rfl
  | cons g gs ih =>
    intro gpre fuel c hfuel
    match fuel, hfuel with
    | f + 1, hf =>
      rw [fieldLoop]
      rw [if_neg (by simp; omega)]
      simp only [natCast_add_one, get_value_shaped_name nm2 gpre g gs]
      rw [if_neg (by simp; omega)]
      simp only [natCast_add_one, get_value_shaped_type nm2 gpre g gs,
        get_value_shaped_value nm2 gpre g gs]
      have hstep : ((3 * gpre.length + 3 : Nat) : Int) =
          ((3 * (gpre ++ [g]).length : Nat) : Int) := by
        simp
        omega
      have happ : gpre ++ g :: gs = (gpre ++ [g]) ++ gs := by
        rw [List.append_cons]
      have ihx : ∀ c2 : Bool,
          fieldLoop (mkShaped nm2 (gpre ++ g :: gs)) nmh num f
              ((3 * gpre.length + 3 : Nat) : Int) c2 =
            fieldLoopSpec nmh num gs c2 := by
        intro c2
        rw [hstep, happ]
        have hf2 : gs.length < f := by
          simp only [List.length_cons] at hf
          omega
        exact ih (gpre ++ [g]) f c2 hf2
      rcases g with ⟨a, b, cc⟩
      cases a with
      | none =>
        simp only [fieldLoopSpec]
        rw [ihx]
      | some fn =>
        cases b with
        | none =>
          simp only [fieldLoopSpec]
          rw [ihx]
        | some ft =>
          cases cc with
          | none =>
            simp only [fieldLoopSpec]
            rw [ihx]
          | some fv =>
            simp only [fieldLoopSpec]
            by_cases hint : (ft == str "int" && !pyIsDigit fv) = true
            · rw [if_pos hint, if_pos hint, ihx]
            · rw [if_neg hint, if_neg hint, ihx]

theorem fieldLoopSpec_diags (nmh : List Char) (num : Nat) (gs : List Row) :
    ∀ c : Bool, (fieldLoopSpec nmh num gs c).2.1 = gs.filterMap (groupDiagOf num) := by
  induction gs with
  | nil => intro c; rfl
  | cons g gs ih =>
    intro c
    rcases g with ⟨a, b, cc⟩
    cases a with
    | none => simp [fieldLoopSpec, groupDiagOf, ih]
    | some fn =>
      cases b with
      | none => simp [fieldLoopSpec, groupDiagOf, ih]
      | some ft =>
        cases cc with
        | none => simp [fieldLoopSpec, groupDiagOf, ih]
        | some fv =>
          by_cases hint : (ft == str "int" && !pyIsDigit fv) = true
          · simp [fieldLoopSpec, groupDiagOf, hint, ih]
          · simp [fieldLoopSpec, groupDiagOf, hint, ih]

theorem fieldLoopSpec_flag (nmh : List Char) (num : Nat) (gs : List Row) :
    ∀ c : Bool, (fieldLoopSpec nmh num gs c).2.2 =
      (c || !(gs.filterMap groupLineOf).isEmpty) := by
  induction gs with
  | nil => intro c; simp [fieldLoopSpec]
  | cons g gs ih =>
    intro c
    rcases g with ⟨a, b, cc⟩
    cases a with
    | none => simp [fieldLoopSpec, groupLineOf, ih c]
    | some fn =>
      cases b with
      | none => simp [fieldLoopSpec, groupLineOf, ih c]
      | some ft =>
        cases cc with
        | none => simp [fieldLoopSpec, groupLineOf, ih c]
        | some fv =>
          by_cases hint : (ft == str "int" && !pyIsDigit fv) = true
          · simp [fieldLoopSpec, groupLineOf, hint, ih c]
          · simp [fieldLoopSpec, groupLineOf, hint, ih true]

theorem fieldLoopSpec_lines_true (nmh : List Char) (num : Nat) (gs : List Row) :
    (fieldLoopSpec nmh num gs true).1 = gs.filterMap groupLineOf := by
  induction gs with
  | nil => rfl
  | cons g gs ih =>
    rcases g with ⟨a, b, cc⟩
    cases a with
    | none => simp [fieldLoopSpec, groupLineOf, ih]
    | some fn =>
      cases b with
      | none => simp [fieldLoopSpec, groupLineOf, ih]
      | some ft =>
        cases cc with
        | none => simp [fieldLoopSpec, groupLineOf, ih]
        | some fv =>
          by_cases hint : (ft == str "int" && !pyIsDigit fv) = true
          · simp [fieldLoopSpec, groupLineOf, hint, ih]
          · simp [fieldLoopSpec, groupLineOf, hint, ih]

theorem groupLineOf_full (fn ft fv : List Char) :
    groupLineOf (some fn, some ft, some fv) =
      if ft == str "int" && !pyIsDigit fv then none else some (fieldLine fn ft fv) := rfl

theorem fieldLoopSpec_lines_false (nmh : List Char) (num : Nat) (gs : List Row) :
    (fieldLoopSpec nmh num gs false).1 =
      if (gs.filterMap groupLineOf).isEmpty then []
      else headerLine nmh :: gs.filterMap groupLineOf := by
  induction gs with
  | nil => rfl
  | cons g gs ih =>
    rcases g with ⟨a, b, cc⟩
    cases a with
    | none => simp [fieldLoopSpec, groupLineOf, ih, List.filterMap_cons]
    | some fn =>
      cases b with
      | none => simp [fieldLoopSpec, groupLineOf, ih, List.filterMap_cons]
      | some ft =>
        cases cc with
        | none => simp [fieldLoopSpec, groupLineOf, ih, List.filterMap_cons]
        | some fv =>
          by_cases hint : (ft == str "int" && !pyIsDigit fv) = true
          · have hg : groupLineOf (some fn, some ft, some fv) = none := by
              rw [groupLineOf_full, if_pos hint]
            simp only [fieldLoopSpec, hint, if_true, List.filterMap_cons, hg]
            exact ih
          · have hg : groupLineOf (some fn, some ft, some fv) = some (fieldLine fn ft fv) := by
              rw [groupLineOf_full, if_neg hint]
            simp only [fieldLoopSpec, hint, Bool.false_eq_true, if_false, List.filterMap_cons, hg]
            simp [fieldLoopSpec_lines_true nmh num gs]

theorem convertObj_shaped (nm : List Char) (gs : List Row) (num : Nat)
    (names : List (List Char)) :
    convertObj (mkShaped (some nm) gs) num names =
      (if names.contains nm then ([], [.dupName num nm], names)
       else (renderObjLines nm gs, renderObjDiags num gs,
             if (gs.filterMap groupLineOf).isEmpty then names else names ++ [nm])) := by
  unfold convertObj
  rw [get_value_shaped_objname]
  by_cases hdup : names.contains nm = true
  · have hmem : nm ∈ names := by simpa using hdup
    simp [hmem]
  · have hfl0 := fieldLoop_shaped (some nm) nm num gs []
      ((mkShaped (some nm) gs).tags.length + 1) false
      (by simp [mkShaped, Trep_length]; omega)
    simp only [List.nil_append, List.length_nil, Nat.mul_zero, Nat.cast_zero] at hfl0
    have hmem : ¬nm ∈ names := by simpa using hdup
    simp only [hdup, hmem, Bool.false_eq_true, if_false]
    rw [hfl0]
    rw [show (fieldLoopSpec nm num gs false).2.2 =
        (false || !(gs.filterMap groupLineOf).isEmpty) from fieldLoopSpec_flag nm num gs false]
    rw [fieldLoopSpec_lines_false, fieldLoopSpec_diags]
    by_cases hval : (gs.filterMap groupLineOf).isEmpty = true
    · simp [hval, renderObjLines, renderObjDiags]
    · simp [hval, renderObjLines, renderObjDiags]

theorem convertObj_shaped_noname (gs : List Row) (num : Nat) (names : List (List Char)) :
    convertObj (mkShaped none gs) num names = ([], [.nameNotSet num], names) := by
  unfold convertObj
  rw [get_value_shaped_objname]

/-- Claim C6: on a Record of the bundled shape, convert emits exactly the
per-group lines and diagnostics: a field group with declared type "int" whose
value has a non-digit character contributes no output line (groupLineOf is
none: the group is omitted) and contributes exactly one diagnostic, the
not-an-integer one, while every other group is still processed and rendered
according to its own content. -/
theorem claimC6 (nm fn fv : List Char) (gs : List Row) (j num : Nat)
    (names : List (List Char))
    (hnm : names.contains nm = false)
    (hj : gs[j]? = some (some fn, some (str "int"), some fv))
    (hnd : pyIsDigit fv = false) :
    (convertObj (mkShaped (some nm) gs) num names).1 = renderObjLines nm gs ∧
      (convertObj (mkShaped (some nm) gs) num names).2.1 = gs.filterMap (groupDiagOf num) ∧
      groupDiagOf num (some fn, some (str "int"), some fv) = some (.notInt num fv) ∧
      groupLineOf (some fn, some (str "int"), some fv) = none := by
  rw [convertObj_shaped, if_neg (by simp_all)]
  refine ⟨rfl, rfl, ?_, ?_⟩
  · simp [groupDiagOf, hnd]
  · simp [groupLineOf, hnd]

/-- Claim C6 (witness): a record with an int-typed group holding "5x" and a
string-typed group holding "ok": the first group is dropped with one
diagnostic, the second is emitted. -/
theorem claimC6_witness :
    ([] : List (List Char)).contains (str "B") = false ∧
      (convertObj (mkShaped (some (str "B"))
          [(some (str "c"), some (str "int"), some (str "5x")),
           (some (str "d"), some (str "string"), some (str "ok"))]) 1 []).1 =
        renderObjLines (str "B")
          [(some (str "c"), some (str "int"), some (str "5x")),
           (some (str "d"), some (str "string"), some (str "ok"))] ∧
      groupDiagOf 1 (some (str "c"), some (str "int"), some (str "5x")) =
        some (.notInt 1 (str "5x")) :=
  ⟨by decide,
   (claimC6 (str "B") (str "c") (str "5x")
     [(some (str "c"), some (str "int"), some (str "5x")),
      (some (str "d"), some (str "string"), some (str "ok"))] 0 1 []
     (by decide) (by decide) (by decide)).1,
   (claimC6 (str "B") (str "c") (str "5x")
     [(some (str "c"), some (str "int"), some (str "5x")),
      (some (str "d"), some (str "string"), some (str "ok"))] 0 1 []
     (by decide) (by decide) (by decide)).2.2.1⟩

/-- Claim C5 (counterexample): two completed Records share the name "A"; the
first yields no valid field group, so its entry is not emitted and its name is
never reserved, the second record's entry IS emitted, and no duplicate-name
diagnostic is produced - the opposite of emit-first, omit-second, one
diagnostic. -/
theorem claimC5_counterexample :
    convertList
        [mkShaped (some (str "A")) [(none, none, none)],
         mkShaped (some (str "A"))
           [(some (str "x"), some (str "string"), some (str "v"))]] 0 [] =
      ([headerLine (str "A"), fieldLine (str "x") (str "string") (str "v"), closerLine],
       [ODiag.requiredMissing 1]) := by
  decide

/-- Claim C5 (amended): for every pair of completed Records whose name-leaf
values are equal, provided the first record produces at least one valid field
group (so that its entry is actually emitted and its name reserved),
serialization emits the entry for the first and entirely omits the entry for
the second, producing exactly one diagnostic that names the duplicated object
name. -/
theorem claimC5_amended (nm : List Char) (gs1 gs2 : List Row)
    (hvalid : (gs1.filterMap groupLineOf).isEmpty = false) :
    convertList [mkShaped (some nm) gs1, mkShaped (some nm) gs2] 0 [] =
      (renderObjLines nm gs1, renderObjDiags 1 gs1 ++ [ODiag.dupName 2 nm]) := by
  unfold convertList
  rw [convertObj_shaped, if_neg (by simp)]
  dsimp only
  rw [hvalid]
  simp only [Bool.false_eq_true, if_false, List.nil_append]
  unfold convertList
  rw [convertObj_shaped, if_pos (by simp)]
  simp [convertList]

/-- Claim C5 (witness): two records named "A", the first with a valid string
group: the first is rendered, the second is dropped with one duplicate-name
diagnostic. -/
theorem claimC5_witness :
    (([(some (str "y"), some (str "int"), some (str "7"))] :
        List Row).filterMap groupLineOf).isEmpty = false ∧
      convertList
          [mkShaped (some (str "A")) [(some (str "y"), some (str "int"), some (str "7"))],
           mkShaped (some (str "A"))
             [(some (str "x"), some (str "string"), some (str "v"))]] 0 [] =
        (renderObjLines (str "A") [(some (str "y"), some (str "int"), some (str "7"))],
         renderObjDiags 1 [(some (str "y"), some (str "int"), some (str "7"))] ++
           [ODiag.dupName 2 (str "A")]) :=
  ⟨by decide,
   claimC5_amended (str "A") [(some (str "y"), some (str "int"), some (str "7"))]
     [(some (str "x"), some (str "string"), some (str "v"))] (by decide)⟩

/-- Claim C7: whenever the serialization phase runs (at least one Record was
completed) with zero valid Records to write (no record produced any output
lines), no output file is written and exactly one diagnostic is recorded by
flush, reporting that the JSON body is empty and there is nothing to write. -/
theorem claimC7 (objs : List XMLObject) (hne : objs ≠ [])
    (hzero : (convertList objs 0 []).1 = []) :
    (runSerialize objs).1 = none ∧ (runSerialize objs).2.2 = [FDiag.bodyEmpty] := by
  have hpos : 0 < objs.length := by
    cases objs with
    | nil => exact absurd rfl hne
    | cons a l => simp
  unfold runSerialize
  rw [if_pos hpos]
  unfold convertLines
  rw [hzero]
  exact ⟨rfl, rfl⟩

/-- Claim C7 (witness): one completed Record with a name but no valid groups:
nothing is written and flush records exactly the body-empty diagnostic. -/
theorem claimC7_witness :
    ([mkShaped (some (str "A")) [(none, none, none)]] ≠ ([] : List XMLObject)) ∧
      (convertList [mkShaped (some (str "A")) [(none, none, none)]] 0 []).1 = [] ∧
      (runSerialize [mkShaped (some (str "A")) [(none, none, none)]]).1 = none ∧
      (runSerialize [mkShaped (some (str "A")) [(none, none, none)]]).2.2 =
        [FDiag.bodyEmpty] :=
  ⟨by decide, by decide,
   (claimC7 [mkShaped (some (str "A")) [(none, none, none)]] (by decide) (by decide)).1,
   (claimC7 [mkShaped (some (str "A")) [(none, none, none)]] (by decide) (by decide)).2⟩

/- Claim C4: no trailing separator before a closing delimiter. -/

theorem fieldLine_head (fn ft fv : List Char) :
    ∃ rest, fieldLine fn ft fv = '\t' :: '\t' :: '"' :: rest :=
  ⟨_, rfl⟩

theorem isCloser_tabtab (rest : List Char) :
    isCloserLine ('\t' :: '\t' :: rest) = false := rfl

theorem ntc_tabtab (rest : List Char) :
    no_trailing_comma.contains ('\t' :: '\t' :: rest) = false := rfl

theorem isCloser_header (nmh : List Char) : isCloserLine (headerLine nmh) = false := rfl

theorem ntc_header (nmh : List Char) :
    no_trailing_comma.contains (headerLine nmh) = false := rfl

theorem mem_of_endsCommaNL (l : List Char) (h : endsCommaNL l = true) : ',' ∈ l := by
  unfold endsCommaNL at h
  cases hr : l.reverse with
  | nil => rw [hr] at h; simp at h
  | cons c1 tail =>
    cases tail with
    | nil => rw [hr] at h; simp at h
    | cons c2 tail2 =>
      rw [hr] at h
      simp only [Bool.and_eq_true, beq_iff_eq] at h
      have : c2 ∈ l.reverse := by rw [hr]; simp
      rw [List.mem_reverse] at this
      rw [← h.2]
      exact this

theorem endsCommaNL_of_no_comma (l : List Char) (h : ',' ∉ l) : endsCommaNL l = false := by
  cases hb : endsCommaNL l with
  | false => rfl
  | true => exact absurd (mem_of_endsCommaNL l hb) h

theorem replaceCommaN_no_comma :
    ∀ (l : List Char) (n : Nat), l.count ',' ≤ n → ',' ∉ replaceCommaN l n := by
  intro l
  induction l with
  | nil =>
    intro n h
    cases n <;> simp [replaceCommaN]
  | cons c cs ih =>
    intro n h
    cases n with
    | zero =>
      rw [replaceCommaN]
      exact List.count_eq_zero.mp (Nat.le_zero.mp h)
    | succ m =>
      rw [replaceCommaN]
      by_cases hc : c = ','
      · rw [if_pos hc]
        apply ih
        subst hc
        rw [List.count_cons_self] at h
        omega
      · rw [if_neg hc]
        intro hmem
        rcases List.mem_cons.mp hmem with heq | hmem2
        · exact hc heq.symm
        · refine absurd hmem2 (ih (m + 1) ?_)
          rw [List.count_cons_of_ne (by simpa using Ne.symm hc)] at h
          exact h

theorem fieldLine_count_le (fn ft fv : List Char) :
    (fieldLine fn ft fv).count ',' + 2 ≤ (fieldLine fn ft fv).length := by
  obtain ⟨rest, hr⟩ := fieldLine_head fn ft fv
  rw [hr]
  have h1 : List.count ',' ('\t' :: '\t' :: '"' :: rest) = List.count ',' rest := by
    rw [List.count_cons_of_ne (by decide), List.count_cons_of_ne (by decide),
      List.count_cons_of_ne (by decide)]
  rw [h1]
  have := @List.count_le_length Char instBEqOfDecidableEq ',' rest
  simp only [List.length_cons]
  omega

theorem stripLine_field_no_comma (fn ft fv : List Char) :
    ',' ∉ stripLine (fieldLine fn ft fv) := by
  obtain ⟨rest, hr⟩ := fieldLine_head fn ft fv
  have hlen : 3 ≤ (fieldLine fn ft fv).length := by
    rw [hr]
    simp
  unfold stripLine pyReplaceComma
  rw [if_neg (by omega)]
  apply replaceCommaN_no_comma
  have hc := fieldLine_count_le fn ft fv
  omega

theorem endsCommaNL_strip_field (fn ft fv : List Char) :
    endsCommaNL (stripLine (fieldLine fn ft fv)) = false :=
  endsCommaNL_of_no_comma _ (stripLine_field_no_comma fn ft fv)

theorem stripLine_field_head (fn ft fv : List Char) :
    ∃ r2, stripLine (fieldLine fn ft fv) = '\t' :: '\t' :: r2 := by
  obtain ⟨rest, hr⟩ := fieldLine_head fn ft fv
  unfold stripLine pyReplaceComma
  rw [if_neg (by rw [hr]; simp; omega)]
  rw [show (((fieldLine fn ft fv).length : Int) - 2).toNat =
      (fieldLine fn ft fv).length - 2 from by omega]
  rw [hr]
  rw [show ('\t' :: '\t' :: '"' :: rest).length - 2 = rest.length + 1 from by simp]
  rw [replaceCommaN, if_neg (by decide), replaceCommaN, if_neg (by decide)]
  exact ⟨_, rfl⟩

theorem isCloser_strip_field (fn ft fv : List Char) :
    isCloserLine (stripLine (fieldLine fn ft fv)) = false := by
  obtain ⟨r2, hr⟩ := stripLine_field_head fn ft fv
  rw [hr]
  exact isCloser_tabtab r2

theorem endsCommaNL_header (nmh : List Char) : endsCommaNL (headerLine nmh) = false := by
  unfold endsCommaNL headerLine
  rw [List.reverse_append]
  rw [show (str "\": \x7b\n").reverse = ['\n', '\x7b', ' ', ':', '"'] from rfl]
  rfl

/-- Lines invariant of the convert loop on an arbitrary Record: with the flag
already set only field lines are emitted; starting unset, either nothing is
emitted and the flag stays unset, or the header is emitted once followed by at
least one field line. -/
theorem fieldLoop_shape (o : XMLObject) (nmh : List Char) (num : Nat) :
    ∀ (fuel : Nat) (idx : Int) (c : Bool),
      (c = true → (fieldLoop o nmh num fuel idx c).2.2 = true ∧
          ∀ l ∈ (fieldLoop o nmh num fuel idx c).1, FieldShape l) ∧
      (c = false →
        ((fieldLoop o nmh num fuel idx c).2.2 = false ∧
            (fieldLoop o nmh num fuel idx c).1 = []) ∨
          ((fieldLoop o nmh num fuel idx c).2.2 = true ∧
            ∃ f0 fs, (fieldLoop o nmh num fuel idx c).1 = headerLine nmh :: f0 :: fs ∧
              FieldShape f0 ∧ ∀ l ∈ fs, FieldShape l)) := by
  intro fuel
  induction fuel with
  | zero =>
    intro idx c
    constructor
    · intro hc
      subst hc
      exact ⟨rfl, by simp [fieldLoop]⟩
    · intro hc
      subst hc
      exact Or.inl ⟨rfl, rfl⟩
  | succ f ih =>
    intro idx c
    rw [fieldLoop]
    by_cases h1 : (idx == -1) = true
    · rw [if_pos h1]
      constructor
      · intro hc
        subst hc
        exact ⟨rfl, by simp⟩
      · intro hc
        subst hc
        exact Or.inl ⟨rfl, rfl⟩
    · rw [if_neg h1]
      by_cases h2 : ((o.get_value nameT (idx + 1)).2 == -1) = true
      · rw [if_pos h2]
        constructor
        · intro hc
          subst hc
          exact ⟨rfl, by simp⟩
        · intro hc
          subst hc
          exact Or.inl ⟨rfl, rfl⟩
      · rw [if_neg h2]
        rcases hg1 : (o.get_value nameT (idx + 1)).1 with _ | fn
        all_goals rcases hg2 : (o.get_value typeT ((o.get_value nameT (idx + 1)).2 + 1)).1 with _ | ft
        all_goals rcases hg3 : (o.get_value valueT
          ((o.get_value typeT ((o.get_value nameT (idx + 1)).2 + 1)).2 + 1)).1 with _ | fv
        all_goals simp only [hg1, hg2, hg3]
        -- the first seven combinations (some field missing) recurse with the
        -- same flag; the last is the full triple
        · constructor
          · intro hc
            obtain ⟨hflag, hlines⟩ := (ih _ c).1 hc
            exact ⟨hflag, hlines⟩
          · intro hc
            rcases (ih _ c).2 hc with ⟨hflag, hlines⟩ | ⟨hflag, f0, fs, hlines, hf0, hfs⟩
            · exact Or.inl ⟨hflag, hlines⟩
            · exact Or.inr ⟨hflag, f0, fs, hlines, hf0, hfs⟩
        · constructor
          · intro hc
            obtain ⟨hflag, hlines⟩ := (ih _ c).1 hc
            exact ⟨hflag, hlines⟩
          · intro hc
            rcases (ih _ c).2 hc with ⟨hflag, hlines⟩ | ⟨hflag, f0, fs, hlines, hf0, hfs⟩
            · exact Or.inl ⟨hflag, hlines⟩
            · exact Or.inr ⟨hflag, f0, fs, hlines, hf0, hfs⟩
        · constructor
          · intro hc
            obtain ⟨hflag, hlines⟩ := (ih _ c).1 hc
            exact ⟨hflag, hlines⟩
          · intro hc
            rcases (ih _ c).2 hc with ⟨hflag, hlines⟩ | ⟨hflag, f0, fs, hlines, hf0, hfs⟩
            · exact Or.inl ⟨hflag, hlines⟩
            · exact Or.inr ⟨hflag, f0, fs, hlines, hf0, hfs⟩
        · constructor
          · intro hc
            obtain ⟨hflag, hlines⟩ := (ih _ c).1 hc
            exact ⟨hflag, hlines⟩
          · intro hc
            rcases (ih _ c).2 hc with ⟨hflag, hlines⟩ | ⟨hflag, f0, fs, hlines, hf0, hfs⟩
            · exact Or.inl ⟨hflag, hlines⟩
            · exact Or.inr ⟨hflag, f0, fs, hlines, hf0, hfs⟩
        · constructor
          · intro hc
            obtain ⟨hflag, hlines⟩ := (ih _ c).1 hc
            exact ⟨hflag, hlines⟩
          · intro hc
            rcases (ih _ c).2 hc with ⟨hflag, hlines⟩ | ⟨hflag, f0, fs, hlines, hf0, hfs⟩
            · exact Or.inl ⟨hflag, hlines⟩
            · exact Or.inr ⟨hflag, f0, fs, hlines, hf0, hfs⟩
        · constructor
          · intro hc
            obtain ⟨hflag, hlines⟩ := (ih _ c).1 hc
            exact ⟨hflag, hlines⟩
          · intro hc
            rcases (ih _ c).2 hc with ⟨hflag, hlines⟩ | ⟨hflag, f0, fs, hlines, hf0, hfs⟩
            · exact Or.inl ⟨hflag, hlines⟩
            · exact Or.inr ⟨hflag, f0, fs, hlines, hf0, hfs⟩
        · constructor
          · intro hc
            obtain ⟨hflag, hlines⟩ := (ih _ c).1 hc
            exact ⟨hflag, hlines⟩
          · intro hc
            rcases (ih _ c).2 hc with ⟨hflag, hlines⟩ | ⟨hflag, f0, fs, hlines, hf0, hfs⟩
            · exact Or.inl ⟨hflag, hlines⟩
            · exact Or.inr ⟨hflag, f0, fs, hlines, hf0, hfs⟩
        · by_cases hint : (ft == str "int" && !pyIsDigit fv) = true
          · rw [if_pos hint]
            constructor
            · intro hc
              obtain ⟨hflag, hlines⟩ := (ih _ c).1 hc
              exact ⟨hflag, hlines⟩
            · intro hc
              rcases (ih _ c).2 hc with ⟨hflag, hlines⟩ | ⟨hflag, f0, fs, hlines, hf0, hfs⟩
              · exact Or.inl ⟨hflag, hlines⟩
              · exact Or.inr ⟨hflag, f0, fs, hlines, hf0, hfs⟩
          · rw [if_neg hint]
            obtain ⟨hflag, hlines⟩ := (ih _ true).1 rfl
            constructor
            · intro hc
              subst hc
              refine ⟨hflag, ?_⟩
              intro l hl
              simp only [if_true, List.singleton_append, List.mem_cons] at hl
              rcases hl with rfl | hl
              · exact ⟨fn, ft, fv, rfl⟩
              · exact hlines l hl
            · intro hc
              subst hc
              refine Or.inr ⟨hflag, fieldLine fn ft fv, _, ?_, ⟨fn, ft, fv, rfl⟩, hlines⟩
              simp

theorem convertObj_lines_shape (o : XMLObject) (num : Nat) (names : List (List Char)) :
    (convertObj o num names).1 = [] ∨
      ∃ nmh f0 fs, (convertObj o num names).1 = headerLine nmh :: (f0 :: fs) ++ [closerLine] ∧
        FieldShape f0 ∧ ∀ l ∈ fs, FieldShape l := by
  unfold convertObj
  dsimp only
  rcases h0 : (o.get_value objNameT 0).1 with _ | nm
  · simp only [h0]
    exact Or.inl trivial
  · by_cases hdup : names.contains nm = true
    · simp only [h0, hdup, if_true]
      exact Or.inl trivial
    · simp only [h0, hdup, Bool.false_eq_true, if_false]
      have hs := (fieldLoop_shape o nm num (o.tags.length + 1) (o.get_value objNameT 0).2 false).2 rfl
      rcases hs with ⟨hflag, hlines⟩ | ⟨hflag, f0, fs, hlines, hf0, hfs⟩
      · rw [hflag]
        simp only [Bool.false_eq_true, if_false]
        exact Or.inl hlines
      · rw [hflag]
        simp only [if_true]
        refine Or.inr ⟨nm, f0, fs, ?_, hf0, hfs⟩
        rw [hlines]

theorem convertList_blocksTail (objs : List XMLObject) :
    ∀ (num : Nat) (names : List (List Char)),
      BlocksTail ((convertList objs num names).1 ++ [jsonClose]) := by
  induction objs with
  | nil =>
    intro num names
    exact BlocksTail.done
  | cons o os ih =>
    intro num names
    rw [convertList]
    rcases convertObj_lines_shape o (num + 1) names with hemp | ⟨nmh, f0, fs, hlines, hf0, hfs⟩
    · dsimp only
      rw [hemp, List.nil_append]
      exact ih (num + 1) _
    · dsimp only
      rw [hlines]
      rw [show ((headerLine nmh :: (f0 :: fs) ++ [closerLine]) ++
          (convertList os (num + 1) (convertObj o (num + 1) names).2.2).1) ++ [jsonClose] =
          headerLine nmh :: (f0 :: fs ++ closerLine ::
            ((convertList os (num + 1) (convertObj o (num + 1) names).2.2).1 ++ [jsonClose]))
          from by simp]
      exact BlocksTail.block nmh f0 fs _ hf0 hfs (ih (num + 1) _)

theorem ntc_field (l : List Char) (h : FieldShape l) :
    no_trailing_comma.contains l = false := by
  obtain ⟨fn, ft, fv, rfl⟩ := h
  obtain ⟨rest, hr⟩ := fieldLine_head fn ft fv
  rw [hr]
  exact ntc_tabtab rest

theorem isCloser_field (l : List Char) (h : FieldShape l) : isCloserLine l = false := by
  obtain ⟨fn, ft, fv, rfl⟩ := h
  obtain ⟨rest, hr⟩ := fieldLine_head fn ft fv
  rw [hr]
  exact isCloser_tabtab rest

theorem ntc_closer : no_trailing_comma.contains closerLine = true := by decide

theorem stripLine_closer : stripLine closerLine = strippedCloser := by decide

/-- Scanning the field lines of one block: the pending line and every listed
line is a field line, the block ends with the closing line, and the remaining
flush output is already known safe whatever (comma-free-ending) line precedes
it. -/
theorem scanFields (rest : List (List Char))
    (hp1 : ∀ q, endsCommaNL q = false → noCommaPairs q (flushLoop closerLine rest) = true) :
    ∀ (fs : List (List Char)) (p : List Char), (∀ l ∈ fs, FieldShape l) → FieldShape p →
      ∀ w, noCommaPairs w (flushLoop p (fs ++ closerLine :: rest)) = true := by
  intro fs
  induction fs with
  | nil =>
    intro p hfs hp w
    rw [List.nil_append, flushLoop, if_pos ntc_closer]
    rw [noCommaPairs]
    obtain ⟨fn, ft, fv, rfl⟩ := hp
    rw [isCloser_strip_field fn ft fv]
    simp only [Bool.not_false, Bool.true_or, Bool.true_and]
    exact hp1 _ (endsCommaNL_strip_field fn ft fv)
  | cons f1 fs2 ih =>
    intro p hfs hp w
    rw [List.cons_append, flushLoop,
      if_neg (by rw [ntc_field f1 (hfs f1 (List.mem_cons_self f1 fs2))]; simp)]
    rw [noCommaPairs]
    rw [isCloser_field p hp]
    simp only [Bool.not_false, Bool.true_or, Bool.true_and]
    exact ih f1 (fun l hl => hfs l (List.mem_cons_of_mem f1 hl))
      (hfs f1 (List.mem_cons_self f1 fs2)) p

/-- Scanning one whole block from its header line: the header never triggers
stripping and is never a closing delimiter. -/
theorem scanHeader (rest : List (List Char))
    (hp1 : ∀ q, endsCommaNL q = false → noCommaPairs q (flushLoop closerLine rest) = true)
    (nmh f0 : List Char) (fs : List (List Char))
    (hf0 : FieldShape f0) (hfs : ∀ l ∈ fs, FieldShape l) (w : List Char) :
    noCommaPairs w (flushLoop (headerLine nmh) ((f0 :: fs) ++ closerLine :: rest)) = true := by
  rw [List.cons_append, flushLoop, if_neg (by rw [ntc_field f0 hf0]; simp)]
  rw [noCommaPairs]
  rw [isCloser_header nmh]
  simp only [Bool.not_false, Bool.true_or, Bool.true_and]
  exact scanFields rest hp1 fs f0 hfs hf0 (headerLine nmh)

/-- Scanning a blocks-suffix with the closing line of the previous block
pending: whatever the flush output of the suffix, no line ending in a dangling
comma immediately precedes a closing delimiter, provided the line written just
before does not end in a comma. -/
theorem scanB (rest : List (List Char)) (h : BlocksTail rest) :
    ∀ q, endsCommaNL q = false → noCommaPairs q (flushLoop closerLine rest) = true := by
  induction h with
  | done =>
    intro q hq
    rw [show flushLoop closerLine [jsonClose] = [strippedCloser, jsonClose] from by decide]
    simp only [noCommaPairs, hq]
    decide
  | block nmh f0 fs rest2 hf0 hfs hbt ih =>
    intro q hq
    rw [flushLoop, if_neg (by rw [ntc_header nmh]; simp)]
    rw [noCommaPairs, hq]
    simp only [Bool.not_false, Bool.or_true, Bool.true_and]
    exact scanHeader rest2 ih nmh f0 fs hf0 hfs closerLine

/-- Entry into the scan: the first queue line after the opening brace starts a
blocks-suffix, and the opening brace itself does not end in a comma. -/
theorem scanBlocksStart (B : List (List Char)) (h : BlocksTail B) :
    ∀ (w p : List Char) (rest2 : List (List Char)), B = p :: rest2 →
      endsCommaNL w = false → noCommaPairs w (flushLoop p rest2) = true := by
  cases h with
  | done =>
    intro w p rest2 hB hw
    injection hB with h1 h2
    subst h1
    subst h2
    simp only [flushLoop, noCommaPairs, hw]
    decide
  | block nmh f0 fs rest2 hf0 hfs hbt =>
    intro w p r2 hB hw
    injection hB with h1 h2
    subst h1
    subst h2
    exact scanHeader rest2 (scanB rest2 hbt) nmh f0 fs hf0 hfs w

/-- Claim C4: for every list of completed Records, whatever the number of
surviving objects and of fields per object, the lines flush writes never have
a line ending in a dangling comma separator immediately before a closing
structural delimiter. When flush writes nothing (zero surviving blocks) the
written text is empty and the property holds vacuously. -/
theorem claimC4 (objs : List XMLObject) :
    noCommaBeforeCloser (((flushResult (convertLines objs)).1).getD []) = true := by
  have hbt := convertList_blocksTail objs 0 []
  unfold convertLines
  rcases hc : (convertList objs 0 []).1 with _ | ⟨b, bs⟩
  · rfl
  · rw [hc] at hbt
    rw [show (jsonOpen :: (b :: bs) ++ [jsonClose]) =
        jsonOpen :: b :: (bs ++ [jsonClose]) from by simp]
    rw [flushResult]
    rw [if_neg (by simp)]
    simp only [Option.getD_some]
    rw [noCommaBeforeCloser]
    exact scanBlocksStart _ hbt jsonOpen b (bs ++ [jsonClose]) rfl (by decide)

/- Claim C1, stage one: the Lexer on canonical well-formed input tokenizes it
   exactly and silently. -/

theorem splitAtChar_not_mem (stop : Char) (A : List Char) (h : stop ∉ A) :
    splitAtChar stop A = (A, []) := by
  induction A with
  | nil => rfl
  | cons c cs ih =>
    have hc : ¬ c = stop := fun hc => h (by rw [hc]; exact List.mem_cons_self stop cs)
    have hm : stop ∉ cs := fun hm => h (List.mem_cons_of_mem c hm)
    simp only [splitAtChar, if_neg hc, List.append_eq, ih hm]

theorem splitAtChar_append (stop : Char) (A B : List Char) (h : stop ∉ A) :
    splitAtChar stop (A ++ stop :: B) = (A, stop :: B) := by
  induction A with
  | nil => simp [splitAtChar]
  | cons c cs ih =>
    have hc : ¬ c = stop := fun hc => h (by rw [hc]; exact List.mem_cons_self stop cs)
    have hm : stop ∉ cs := fun hm => h (List.mem_cons_of_mem c hm)
    simp only [List.cons_append, splitAtChar, if_neg hc, List.append_eq, ih hm]

theorem lexRun_nil (ps : LexSchema) (fuel : Nat) (rv : Bool) (n : Nat) :
    lexRun ps fuel [] rv n = ([], []) := by
  cases fuel <;> rfl

/-- One reading step of the Lexer on a correct tag: the tag is enqueued, the
read-value flag becomes the tag's value-tag status, and the counter advances
by the tag length. -/
theorem lex_tag (ps : LexSchema) (t mid : List Char) (f : Bool) (k : Nat)
    (hdec : t = '<' :: mid ++ ['>']) (h1 : '>' ∉ mid)
    (h2 : is_correct_tag ps t = true) (hf : is_value_tag ps t = f)
    (hk : t.length = k) (fuel : Nat) (rest : List Char) (rv : Bool) (n : Nat) :
    lexRun ps (fuel + 1) (t ++ rest) rv n =
      (t :: (lexRun ps fuel rest f (n + k)).1, (lexRun ps fuel rest f (n + k)).2) := by
  subst hdec
  subst hf
  subst hk
  rw [show ('<' :: mid ++ ['>']) ++ rest = '<' :: (mid ++ '>' :: rest) from by simp]
  simp only [lexRun, if_true]
  rw [splitAtChar_append '>' mid rest h1]
  dsimp only
  rw [h2]
  simp only [if_true]
  have harith : n + 1 + mid.length + 1 = n + ('<' :: mid ++ ['>']).length := by
    simp only [List.length_cons, List.length_append, List.length_singleton,
      List.length_nil]
    omega
  rw [harith]

/-- One reading step of the Lexer on a correct value followed by a tag: the
value is enqueued, the flag clears, the counter advances by the value
length. -/
theorem lex_value (ps : LexSchema) (v rest2 : List Char) (hne : v ≠ [])
    (hnl : '<' ∉ v) (hcv : is_correct_value v = true) (fuel : Nat) (n : Nat) :
    lexRun ps (fuel + 1) (v ++ '<' :: rest2) true n =
      (v :: (lexRun ps fuel ('<' :: rest2) false (n + v.length)).1,
       (lexRun ps fuel ('<' :: rest2) false (n + v.length)).2) := by
  obtain ⟨c, cs, rfl⟩ : ∃ c cs, v = c :: cs := by
    cases v with
    | nil => exact absurd rfl hne
    | cons c cs => exact ⟨c, cs, rfl⟩
  have hc : ¬ c = '<' := fun h => hnl (by rw [h] at *; exact List.mem_cons_self _ _)
  rw [show (c :: cs) ++ '<' :: rest2 = c :: (cs ++ '<' :: rest2) from rfl]
  simp only [lexRun]
  rw [if_neg hc]
  rw [show c :: (cs ++ '<' :: rest2) = (c :: cs) ++ '<' :: rest2 from rfl]
  rw [splitAtChar_append '<' (c :: cs) rest2 hnl]
  dsimp only
  rw [hcv]
  simp only [if_true, List.isEmpty_cons, Bool.false_eq_true, if_false]
  simp only [List.singleton_append, List.nil_append]
  rw [show n + (c :: cs).length + 1 - 1 = n + (c :: cs).length from by omega]

/-- What legality of a value string gives the Lexer. -/
theorem legalStr_facts (v : List Char) (h : legalStr v = true) :
    v ≠ [] ∧ '<' ∉ v ∧ is_correct_value v = true := by
  unfold legalStr at h
  simp only [Bool.and_eq_true, Bool.not_eq_true', List.all_eq_true] at h
  obtain ⟨hne, hall⟩ := h
  refine ⟨?_, ?_, ?_⟩
  · intro hv
    rw [hv] at hne
    simp at hne
  · intro hm
    have := hall '<' hm
    simp [legalChar, illegal_characters] at this
  · have h1 : hasIllegalChar v = false := by
      unfold hasIllegalChar
      rw [List.any_eq_false]
      intro c hc
      have hl := hall c hc
      unfold legalChar at hl
      simp only [Bool.and_eq_true, Bool.not_eq_true'] at hl
      have hnmem : c ∉ illegal_characters := by simpa using hl.2
      simp [hnmem]
    have h2 : pyIsPrintable v = true := by
      unfold pyIsPrintable
      rw [List.all_eq_true]
      intro c hc
      have hl := hall c hc
      unfold legalChar at hl
      simp only [Bool.and_eq_true] at hl
      exact hl.1
    unfold is_correct_value
    rw [h1, h2]
    rfl

theorem plainValue_facts (v : List Char) (h : plainValue v = true) :
    v ≠ [] ∧ '<' ∉ v ∧ is_correct_value v = true ∧
      (decide (2 < v.length) && v[1]? == some '/') = false := by
  unfold plainValue at h
  simp only [Bool.and_eq_true, Bool.not_eq_true'] at h
  obtain ⟨h1, h2⟩ := h
  obtain ⟨a, b, c⟩ := legalStr_facts v h1
  exact ⟨a, b, c, h2⟩

/- The twelve canonical tags, instantiated. -/

theorem lexT_objectO (fuel : Nat) (rest : List Char) (rv : Bool) (n : Nat) :
    lexRun parserSchema (fuel + 1) (objectO ++ rest) rv n =
      (objectO :: (lexRun parserSchema fuel rest false (n + 8)).1,
       (lexRun parserSchema fuel rest false (n + 8)).2) :=
  lex_tag parserSchema objectO (str "object") false 8 (by decide) (by decide)
    (by decide) (by decide) (by decide) fuel rest rv n

theorem lexT_objNameT (fuel : Nat) (rest : List Char) (rv : Bool) (n : Nat) :
    lexRun parserSchema (fuel + 1) (objNameT ++ rest) rv n =
      (objNameT :: (lexRun parserSchema fuel rest true (n + 10)).1,
       (lexRun parserSchema fuel rest true (n + 10)).2) :=
  lex_tag parserSchema objNameT (str "obj_name") true 10 (by decide) (by decide)
    (by decide) (by decide) (by decide) fuel rest rv n

theorem lexT_objNameC (fuel : Nat) (rest : List Char) (rv : Bool) (n : Nat) :
    lexRun parserSchema (fuel + 1) (objNameC ++ rest) rv n =
      (objNameC :: (lexRun parserSchema fuel rest false (n + 11)).1,
       (lexRun parserSchema fuel rest false (n + 11)).2) :=
  lex_tag parserSchema objNameC (str "/obj_name") false 11 (by decide) (by decide)
    (by decide) (by decide) (by decide) fuel rest rv n

theorem lexT_nameT (fuel : Nat) (rest : List Char) (rv : Bool) (n : Nat) :
    lexRun parserSchema (fuel + 1) (nameT ++ rest) rv n =
      (nameT :: (lexRun parserSchema fuel rest true (n + 6)).1,
       (lexRun parserSchema fuel rest true (n + 6)).2) :=
  lex_tag parserSchema nameT (str "name") true 6 (by decide) (by decide)
    (by decide) (by decide) (by decide) fuel rest rv n

theorem lexT_nameC (fuel : Nat) (rest : List Char) (rv : Bool) (n : Nat) :
    lexRun parserSchema (fuel + 1) (nameC ++ rest) rv n =
      (nameC :: (lexRun parserSchema fuel rest false (n + 7)).1,
       (lexRun parserSchema fuel rest false (n + 7)).2) :=
  lex_tag parserSchema nameC (str "/name") false 7 (by decide) (by decide)
    (by decide) (by decide) (by decide) fuel rest rv n

theorem lexT_typeT (fuel : Nat) (rest : List Char) (rv : Bool) (n : Nat) :
    lexRun parserSchema (fuel + 1) (typeT ++ rest) rv n =
      (typeT :: (lexRun parserSchema fuel rest true (n + 6)).1,
       (lexRun parserSchema fuel rest true (n + 6)).2) :=
  lex_tag parserSchema typeT (str "type") true 6 (by decide) (by decide)
    (by decide) (by decide) (by decide) fuel rest rv n

theorem lexT_typeC (fuel : Nat) (rest : List Char) (rv : Bool) (n : Nat) :
    lexRun parserSchema (fuel + 1) (typeC ++ rest) rv n =
      (typeC :: (lexRun parserSchema fuel rest false (n + 7)).1,
       (lexRun parserSchema fuel rest false (n + 7)).2) :=
  lex_tag parserSchema typeC (str "/type") false 7 (by decide) (by decide)
    (by decide) (by decide) (by decide) fuel rest rv n

theorem lexT_valueT (fuel : Nat) (rest : List Char) (rv : Bool) (n : Nat) :
    lexRun parserSchema (fuel + 1) (valueT ++ rest) rv n =
      (valueT :: (lexRun parserSchema fuel rest true (n + 7)).1,
       (lexRun parserSchema fuel rest true (n + 7)).2) :=
  lex_tag parserSchema valueT (str "value") true 7 (by decide) (by decide)
    (by decide) (by decide) (by decide) fuel rest rv n

theorem lexT_valueC (fuel : Nat) (rest : List Char) (rv : Bool) (n : Nat) :
    lexRun parserSchema (fuel + 1) (valueC ++ rest) rv n =
      (valueC :: (lexRun parserSchema fuel rest false (n + 8)).1,
       (lexRun parserSchema fuel rest false (n + 8)).2) :=
  lex_tag parserSchema valueC (str "/value") false 8 (by decide) (by decide)
    (by decide) (by decide) (by decide) fuel rest rv n

theorem lexT_fieldO (fuel : Nat) (rest : List Char) (rv : Bool) (n : Nat) :
    lexRun parserSchema (fuel + 1) (fieldO ++ rest) rv n =
      (fieldO :: (lexRun parserSchema fuel rest false (n + 7)).1,
       (lexRun parserSchema fuel rest false (n + 7)).2) :=
  lex_tag parserSchema fieldO (str "field") false 7 (by decide) (by decide)
    (by decide) (by decide) (by decide) fuel rest rv n

theorem lexT_fieldC (fuel : Nat) (rest : List Char) (rv : Bool) (n : Nat) :
    lexRun parserSchema (fuel + 1) (fieldC ++ rest) rv n =
      (fieldC :: (lexRun parserSchema fuel rest false (n + 8)).1,
       (lexRun parserSchema fuel rest false (n + 8)).2) :=
  lex_tag parserSchema fieldC (str "/field") false 8 (by decide) (by decide)
    (by decide) (by decide) (by decide) fuel rest rv n

theorem lexT_objectC (fuel : Nat) (rest : List Char) (rv : Bool) (n : Nat) :
    lexRun parserSchema (fuel + 1) (objectC ++ rest) rv n =
      (objectC :: (lexRun parserSchema fuel rest false (n + 9)).1,
       (lexRun parserSchema fuel rest false (n + 9)).2) :=
  lex_tag parserSchema objectC (str "/object") false 9 (by decide) (by decide)
    (by decide) (by decide) (by decide) fuel rest rv n

/- Closing tags exposed with their leading bracket, for the value step. -/

theorem objNameC_cons (X : List Char) : objNameC ++ X = '<' :: (str "/obj_name>" ++ X) := by
  rw [show objNameC = '<' :: str "/obj_name>" from by decide]
  rfl

theorem nameC_cons (X : List Char) : nameC ++ X = '<' :: (str "/name>" ++ X) := by
  rw [show nameC = '<' :: str "/name>" from by decide]
  rfl

theorem typeC_cons (X : List Char) : typeC ++ X = '<' :: (str "/type>" ++ X) := by
  rw [show typeC = '<' :: str "/type>" from by decide]
  rfl

theorem valueC_cons (X : List Char) : valueC ++ X = '<' :: (str "/value>" ++ X) := by
  rw [show valueC = '<' :: str "/value>" from by decide]
  rfl

/-- The Lexer consumes the text of one legal field group in eleven reading
steps, enqueues its eleven tokens, and emits no diagnostic. -/
theorem lexGroup (g : CGroup) (hg : legalGroupA g = true) (fuel : Nat)
    (rest : List Char) (n : Nat) :
    ∃ m, lexRun parserSchema (fuel + 11) (groupText g ++ rest) false n =
      (groupTokens g ++ (lexRun parserSchema fuel rest false m).1,
       (lexRun parserSchema fuel rest false m).2) := by
  unfold legalGroupA at hg
  simp only [Bool.and_eq_true] at hg
  obtain ⟨⟨⟨⟨⟨hfn, hfv⟩, hft⟩, hfi⟩, hcm1⟩, hcm2⟩ := hg
  obtain ⟨hfn1, hfn2, hfn3, _⟩ := plainValue_facts _ hfn
  obtain ⟨hfv1, hfv2, hfv3, _⟩ := plainValue_facts _ hfv
  have hftS : g.ftype ≠ [] ∧ '<' ∉ g.ftype ∧ is_correct_value g.ftype = true := by
    rcases (Bool.or_eq_true _ _).mp hft with h | h
    · rw [eq_of_beq h]
      exact ⟨by decide, by decide, by decide⟩
    · rw [eq_of_beq h]
      exact ⟨by decide, by decide, by decide⟩
  rw [show groupText g ++ rest =
      fieldO ++ (nameT ++ (g.fname ++ (nameC ++ (typeT ++ (g.ftype ++ (typeC ++
        (valueT ++ (g.fvalue ++ (valueC ++ (fieldC ++ rest)))))))))) from by
    simp [groupText, List.append_assoc]]
  rw [show fuel + 11 = fuel + 10 + 1 from by omega, lexT_fieldO]
  rw [show fuel + 10 = fuel + 9 + 1 from by omega, lexT_nameT]
  rw [nameC_cons]
  rw [show fuel + 9 = fuel + 8 + 1 from by omega,
    lex_value parserSchema g.fname _ hfn1 hfn2 hfn3]
  rw [← nameC_cons]
  rw [show fuel + 8 = fuel + 7 + 1 from by omega, lexT_nameC]
  rw [show fuel + 7 = fuel + 6 + 1 from by omega, lexT_typeT]
  rw [typeC_cons]
  rw [show fuel + 6 = fuel + 5 + 1 from by omega,
    lex_value parserSchema g.ftype _ hftS.1 hftS.2.1 hftS.2.2]
  rw [← typeC_cons]
  rw [show fuel + 5 = fuel + 4 + 1 from by omega, lexT_typeC]
  rw [show fuel + 4 = fuel + 3 + 1 from by omega, lexT_valueT]
  rw [valueC_cons]
  rw [show fuel + 3 = fuel + 2 + 1 from by omega,
    lex_value parserSchema g.fvalue _ hfv1 hfv2 hfv3]
  rw [← valueC_cons]
  rw [show fuel + 2 = fuel + 1 + 1 from by omega, lexT_valueC]
  rw [lexT_fieldC]
  refine ⟨n + 7 + 6 + g.fname.length + 7 + 6 + g.ftype.length + 7 + 7 +
    g.fvalue.length + 8 + 8, ?_⟩
  simp only [groupTokens, List.cons_append, List.nil_append]

/-- The Lexer consumes a run of legal field groups, enqueueing their tokens in
order with no diagnostics. -/
theorem lexGroups : ∀ (gs : List CGroup), gs.all legalGroupA = true →
    ∀ (fuel : Nat) (rest : List Char) (n : Nat),
    ∃ m, lexRun parserSchema (fuel + 11 * gs.length) ((gs.map groupText).flatten ++ rest) false n =
      ((gs.map groupTokens).flatten ++ (lexRun parserSchema fuel rest false m).1,
       (lexRun parserSchema fuel rest false m).2) := by
  intro gs
  induction gs with
  | nil =>
    intro _ fuel rest n
    exact ⟨n, by simp⟩
  | cons g gs2 ih =>
    intro hg fuel rest n
    simp only [List.all_cons, Bool.and_eq_true] at hg
    obtain ⟨hg1, hg2⟩ := hg
    rw [show (((g :: gs2).map groupText).flatten ++ rest) =
        groupText g ++ (((gs2.map groupText).flatten) ++ rest) from by simp]
    rw [show fuel + 11 * (g :: gs2).length = (fuel + 11 * gs2.length) + 11 from by
      simp only [List.length_cons]; omega]
    obtain ⟨m1, h1⟩ := lexGroup g hg1 (fuel + 11 * gs2.length)
      ((gs2.map groupText).flatten ++ rest) n
    rw [h1]
    obtain ⟨m2, h2⟩ := ih hg2 fuel rest m1
    rw [h2]
    exact ⟨m2, by simp⟩

/-- The Lexer consumes the text of one legal instance, enqueueing its tokens
in order with no diagnostics. -/
theorem lexInst (i : CInst) (hi : legalInstA i = true) (fuel : Nat)
    (rest : List Char) (n : Nat) :
    ∃ m, lexRun parserSchema (fuel + (11 * i.groups.length + 5)) (instText i ++ rest) false n =
      (instTokens i ++ (lexRun parserSchema fuel rest false m).1,
       (lexRun parserSchema fuel rest false m).2) := by
  unfold legalInstA at hi
  simp only [Bool.and_eq_true] at hi
  obtain ⟨⟨hnm, hne⟩, hgs⟩ := hi
  obtain ⟨hnm1, hnm2, hnm3, _⟩ := plainValue_facts _ hnm
  rw [show instText i ++ rest =
      objectO ++ (objNameT ++ (i.iname ++ (objNameC ++
        ((i.groups.map groupText).flatten ++ (objectC ++ rest))))) from by
    simp [instText, List.append_assoc]]
  rw [show fuel + (11 * i.groups.length + 5) = (fuel + (11 * i.groups.length + 4)) + 1
    from by omega, lexT_objectO]
  rw [show fuel + (11 * i.groups.length + 4) = (fuel + (11 * i.groups.length + 3)) + 1
    from by omega, lexT_objNameT]
  rw [objNameC_cons]
  rw [show fuel + (11 * i.groups.length + 3) = (fuel + (11 * i.groups.length + 2)) + 1
    from by omega, lex_value parserSchema i.iname _ hnm1 hnm2 hnm3]
  rw [← objNameC_cons]
  rw [show fuel + (11 * i.groups.length + 2) = (fuel + (11 * i.groups.length + 1)) + 1
    from by omega, lexT_objNameC]
  rw [show fuel + (11 * i.groups.length + 1) = (fuel + 1) + 11 * i.groups.length
    from by omega]
  obtain ⟨m1, h1⟩ := lexGroups i.groups hgs (fuel + 1) (objectC ++ rest)
    (n + 8 + 10 + i.iname.length + 11)
  rw [h1]
  rw [lexT_objectC]
  refine ⟨m1 + 9, ?_⟩
  simp only [instTokens, List.cons_append, List.append_assoc, List.singleton_append,
    List.nil_append]

/-- The reading steps one instance costs are dominated by its text length. -/
theorem instText_fuel_le (i : CInst) : 11 * i.groups.length + 5 ≤ (instText i).length := by
  have hgs : ∀ gs : List CGroup, 11 * gs.length ≤ ((gs.map groupText).flatten).length := by
    intro gs
    induction gs with
    | nil => simp
    | cons g gs2 ih =>
      have e1 : (fieldO : List Char).length = 7 := by decide
      have e2 : (nameT : List Char).length = 6 := by decide
      have h1 : 11 ≤ (groupText g).length := by
        simp only [groupText, List.length_append]
        omega
      simp only [List.map_cons, List.flatten_cons, List.length_append, List.length_cons]
      omega
  have h2 := hgs i.groups
  have e1 : (objectO : List Char).length = 8 := by decide
  have e2 : (objNameT : List Char).length = 10 := by decide
  have e3 : (objNameC : List Char).length = 11 := by decide
  have e4 : (objectC : List Char).length = 9 := by decide
  simp only [instText, List.length_append]
  omega

/-- The Lexer consumes the canonical text of a run of legal instances,
producing exactly the canonical token stream with no diagnostics; the reading
steps needed are dominated by the text length. -/
theorem lexInstsAux : ∀ (insts : List CInst), insts.all legalInstA = true →
    ∃ F, F ≤ (canonicalText insts).length ∧ ∀ (fuel : Nat) (rest : List Char) (n : Nat),
      ∃ m, lexRun parserSchema (fuel + F) (canonicalText insts ++ rest) false n =
        (canonTokens insts ++ (lexRun parserSchema fuel rest false m).1,
         (lexRun parserSchema fuel rest false m).2) := by
  intro insts
  induction insts with
  | nil =>
    intro _
    exact ⟨0, by simp, fun fuel rest n => ⟨n, by simp [canonicalText, canonTokens]⟩⟩
  | cons i insts2 ih =>
    intro h
    simp only [List.all_cons, Bool.and_eq_true] at h
    obtain ⟨h1, h2⟩ := h
    obtain ⟨F2, hF2le, hF2⟩ := ih h2
    refine ⟨(11 * i.groups.length + 5) + F2, ?_, ?_⟩
    · have hle := instText_fuel_le i
      simp only [canonicalText, List.map_cons, List.flatten_cons, List.length_append]
      simp only [canonicalText] at hF2le
      omega
    · intro fuel rest n
      rw [show canonicalText (i :: insts2) ++ rest =
          instText i ++ (canonicalText insts2 ++ rest) from by simp [canonicalText]]
      rw [show fuel + ((11 * i.groups.length + 5) + F2) =
          (fuel + F2) + (11 * i.groups.length + 5) from by omega]
      obtain ⟨m1, hm1⟩ := lexInst i h1 (fuel + F2) (canonicalText insts2 ++ rest) n
      rw [hm1]
      obtain ⟨m2, hm2⟩ := hF2 fuel rest m1
      rw [hm2]
      exact ⟨m2, by simp [canonTokens]⟩

/-- The whole Lexer run on canonical legal input: exactly the canonical
tokens, no diagnostics. -/
theorem lexAll_canon (insts : List CInst) (h : insts.all legalInstA = true) :
    lexAll (canonicalText insts) = (canonTokens insts, []) := by
  obtain ⟨F, hFle, hF⟩ := lexInstsAux insts h
  obtain ⟨m, hm⟩ := hF (2 * (canonicalText insts).length + 1 - F) [] 0
  simp only [lexRun_nil, List.append_nil] at hm
  unfold lexAll
  rw [show 2 * (canonicalText insts).length + 1 =
      (2 * (canonicalText insts).length + 1 - F) + F from by omega]
  rw [hm]

/- Claim C1, stage two: the Depth Validator completes one shaped Record per
   canonical instance, silently. First the slot bookkeeping of set_value on
   shaped Records. -/

theorem last_index_tail3_name (A : List (List Char)) :
    last_index (A ++ [nameT, typeT, valueT]) nameT = some A.length := by
  unfold last_index
  rw [List.reverse_append]
  rw [show ([nameT, typeT, valueT] : List (List Char)).reverse = [valueT, typeT, nameT]
    from by decide]
  rw [show ([valueT, typeT, nameT] : List (List Char)) ++ A.reverse =
      valueT :: typeT :: nameT :: A.reverse from rfl]
  rw [List.findIdx?_cons, if_neg (by decide), List.findIdx?_cons, if_neg (by decide),
    List.findIdx?_cons, if_pos (by decide)]
  simp only [List.length_append, List.length_cons, List.length_nil]
  congr 1

theorem last_index_tail3_type (A : List (List Char)) :
    last_index (A ++ [nameT, typeT, valueT]) typeT = some (A.length + 1) := by
  unfold last_index
  rw [List.reverse_append]
  rw [show ([nameT, typeT, valueT] : List (List Char)).reverse = [valueT, typeT, nameT]
    from by decide]
  rw [show ([valueT, typeT, nameT] : List (List Char)) ++ A.reverse =
      valueT :: typeT :: nameT :: A.reverse from rfl]
  rw [List.findIdx?_cons, if_neg (by decide), List.findIdx?_cons, if_pos (by decide)]
  simp only [List.length_append, List.length_cons, List.length_nil]
  congr 1

theorem last_index_tail3_value (A : List (List Char)) :
    last_index (A ++ [nameT, typeT, valueT]) valueT = some (A.length + 2) := by
  unfold last_index
  rw [List.reverse_append]
  rw [show ([nameT, typeT, valueT] : List (List Char)).reverse = [valueT, typeT, nameT]
    from by decide]
  rw [show ([valueT, typeT, nameT] : List (List Char)) ++ A.reverse =
      valueT :: typeT :: nameT :: A.reverse from rfl]
  rw [List.findIdx?_cons, if_pos (by decide)]
  simp only [List.length_append, List.length_cons, List.length_nil]
  congr 1

theorem mem_Trep (x : List Char) (k : Nat) (h : x ∈ Trep k) :
    x = nameT ∨ x = typeT ∨ x = valueT := by
  unfold Trep at h
  obtain ⟨l, hl, hxl⟩ := List.mem_flatten.mp h
  obtain ⟨_, hrep⟩ := List.mem_replicate.mp hl
  rw [hrep] at hxl
  simpa using hxl

theorem last_index_shaped_objname (k : Nat) :
    last_index (objNameT :: Trep k) objNameT = some 0 := by
  unfold last_index
  rw [List.reverse_cons]
  rw [List.findIdx?_append]
  have h1 : List.findIdx? (· == objNameT) (Trep k).reverse = none := by
    rw [List.findIdx?_eq_none_iff]
    intro x hx
    have hx2 := mem_Trep x k (List.mem_reverse.mp hx)
    rcases hx2 with rfl | rfl | rfl <;> decide
  rw [h1]
  rw [show List.findIdx? (· == objNameT) [objNameT] = some 0 from by decide]
  rw [show (none : Option Nat).or (Option.map (fun i => i + ((Trep k).reverse).length)
      (some 0)) = some ((Trep k).reverse.length) from by simp]
  dsimp only
  rw [show (objNameT :: Trep k).length - (Trep k).reverse.length - 1 = 0 from by
    simp only [List.length_reverse, List.length_cons, Trep_length]
    omega]

/-- The tag sequence of a shaped Record with a last group split off. -/
theorem tags_shaped_last (nmo : Option (List Char)) (pre : List Row) (r : Row) :
    (mkShaped nmo (pre ++ [r])).tags =
      (objNameT :: Trep pre.length) ++ [nameT, typeT, valueT] := by
  rw [show (mkShaped nmo (pre ++ [r])).tags = objNameT :: Trep (pre ++ [r]).length from rfl]
  rw [show (pre ++ [r]).length = pre.length + 1 from by simp]
  rw [Trep_add pre.length 1, show Trep 1 = [nameT, typeT, valueT] from by decide,
    ← List.cons_append]

/-- The value sequence of a shaped Record with a last group split off. -/
theorem vals_shaped_last (nmo : Option (List Char)) (pre : List Row)
    (a b c : Option (List Char)) :
    (mkShaped nmo (pre ++ [(a, b, c)])).values = nmo :: (Vg pre ++ [a, b, c]) := by
  rw [show (mkShaped nmo (pre ++ [(a, b, c)])).values = nmo :: Vg (pre ++ [(a, b, c)])
    from rfl, Vg_append]
  rfl

theorem vals_idx_last_1 (nmo : Option (List Char)) (pre : List Row)
    (a b c : Option (List Char)) :
    (mkShaped nmo (pre ++ [(a, b, c)])).values[3 * pre.length + 1]? = some a := by
  rw [vals_shaped_last, List.getElem?_cons_succ, List.getElem?_append,
    if_neg (by rw [Vg_length]; omega),
    show 3 * pre.length - (Vg pre).length = 0 from by rw [Vg_length]; omega]
  rfl

theorem vals_idx_last_2 (nmo : Option (List Char)) (pre : List Row)
    (a b c : Option (List Char)) :
    (mkShaped nmo (pre ++ [(a, b, c)])).values[3 * pre.length + 2]? = some b := by
  rw [vals_shaped_last, show 3 * pre.length + 2 = (3 * pre.length + 1) + 1 from rfl,
    List.getElem?_cons_succ, List.getElem?_append,
    if_neg (by rw [Vg_length]; omega),
    show 3 * pre.length + 1 - (Vg pre).length = 1 from by rw [Vg_length]; omega]
  rfl

theorem vals_idx_last_3 (nmo : Option (List Char)) (pre : List Row)
    (a b c : Option (List Char)) :
    (mkShaped nmo (pre ++ [(a, b, c)])).values[3 * pre.length + 3]? = some c := by
  rw [vals_shaped_last, show 3 * pre.length + 3 = (3 * pre.length + 2) + 1 from rfl,
    List.getElem?_cons_succ, List.getElem?_append,
    if_neg (by rw [Vg_length]; omega),
    show 3 * pre.length + 2 - (Vg pre).length = 2 from by rw [Vg_length]; omega]
  rfl

theorem vals_set_last_1 (nmo : Option (List Char)) (pre : List Row)
    (a b c : Option (List Char)) (v : List Char) :
    (mkShaped nmo (pre ++ [(a, b, c)])).values.set (3 * pre.length + 1) (some v) =
      (mkShaped nmo (pre ++ [(some v, b, c)])).values := by
  rw [vals_shaped_last, vals_shaped_last, List.set_cons_succ, List.set_append,
    if_neg (by rw [Vg_length]; omega),
    show 3 * pre.length - (Vg pre).length = 0 from by rw [Vg_length]; omega]
  rfl

theorem vals_set_last_2 (nmo : Option (List Char)) (pre : List Row)
    (a b c : Option (List Char)) (v : List Char) :
    (mkShaped nmo (pre ++ [(a, b, c)])).values.set (3 * pre.length + 2) (some v) =
      (mkShaped nmo (pre ++ [(a, some v, c)])).values := by
  rw [vals_shaped_last, vals_shaped_last,
    show 3 * pre.length + 2 = (3 * pre.length + 1) + 1 from rfl,
    List.set_cons_succ, List.set_append,
    if_neg (by rw [Vg_length]; omega),
    show 3 * pre.length + 1 - (Vg pre).length = 1 from by rw [Vg_length]; omega]
  rfl

theorem vals_set_last_3 (nmo : Option (List Char)) (pre : List Row)
    (a b c : Option (List Char)) (v : List Char) :
    (mkShaped nmo (pre ++ [(a, b, c)])).values.set (3 * pre.length + 3) (some v) =
      (mkShaped nmo (pre ++ [(a, b, some v)])).values := by
  rw [vals_shaped_last, vals_shaped_last,
    show 3 * pre.length + 3 = (3 * pre.length + 2) + 1 from rfl,
    List.set_cons_succ, List.set_append,
    if_neg (by rw [Vg_length]; omega),
    show 3 * pre.length + 2 - (Vg pre).length = 2 from by rw [Vg_length]; omega]
  rfl

theorem XMLObject_eq (s t : XMLObject) (h1 : s.structNode = t.structNode)
    (h2 : s.tags = t.tags) (h3 : s.values = t.values) : s = t := by
  cases s
  cases t
  cases h1
  cases h2
  cases h3
  rfl

/-- set_value on the fresh object of the bundled schema: the obj_name slot is
filled. -/
theorem sv_objname (nm : List Char) :
    (XMLObject.init objectNode).set_value objNameT nm =
      some (mkShaped (some nm) [(none, none, none)], true, []) := rfl

/-- set_value on a shaped Record whose last group has an unset name slot:
stores the name there. -/
theorem sv_name_fresh (nm v : List Char) (pre : List Row) (b c : Option (List Char)) :
    (mkShaped (some nm) (pre ++ [(none, b, c)])).set_value nameT v =
      some (mkShaped (some nm) (pre ++ [(some v, b, c)]), true, []) := by
  have hli : last_index (mkShaped (some nm) (pre ++ [(none, b, c)])).tags nameT =
      some (3 * pre.length + 1) := by
    rw [tags_shaped_last, last_index_tail3_name]
    simp only [List.length_cons, Trep_length]
  have hval := vals_idx_last_1 (some nm) pre none b c
  have hfind : tagToNodeP none (mkShaped (some nm) (pre ++ [(none, b, c)])).structNode nameT =
      some (nameNode, some fieldNode) := by
    rw [show (mkShaped (some nm) (pre ++ [(none, b, c)])).structNode = objectNode from rfl]
    decide
  simp only [XMLObject.set_value, hli, hval, hfind]
  simp only [XMLObject.assign, show nameNode.allowed_values = none from rfl]
  have hobj : ({ (mkShaped (some nm) (pre ++ [(none, b, c)])) with
      values := (mkShaped (some nm) (pre ++ [(none, b, c)])).values.set
        (3 * pre.length + 1) (some v) } : XMLObject) =
      mkShaped (some nm) (pre ++ [(some v, b, c)]) := by
    apply XMLObject_eq
    · rfl
    · simp [mkShaped]
    · exact vals_set_last_1 (some nm) pre none b c v
  rw [hobj]

/-- set_value on a shaped Record whose last group already has a name: the
repeatable field subtree is cloned (three fresh slots appended) and the name
is stored in the new group. -/
theorem sv_name_rep (nm v a : List Char) (pre : List Row) (b c : Option (List Char)) :
    (mkShaped (some nm) (pre ++ [(some a, b, c)])).set_value nameT v =
      some (mkShaped (some nm) (pre ++ [(some a, b, c)] ++ [(some v, none, none)]),
        true, []) := by
  have hli : last_index (mkShaped (some nm) (pre ++ [(some a, b, c)])).tags nameT =
      some (3 * pre.length + 1) := by
    rw [tags_shaped_last, last_index_tail3_name]
    simp only [List.length_cons, Trep_length]
  have hval := vals_idx_last_1 (some nm) pre (some a) b c
  have hfind : tagToNodeP none (mkShaped (some nm) (pre ++ [(some a, b, c)])).structNode nameT =
      some (nameNode, some fieldNode) := by
    rw [show (mkShaped (some nm) (pre ++ [(some a, b, c)])).structNode = objectNode from rfl]
    decide
  have hbuild : (mkShaped (some nm) (pre ++ [(some a, b, c)])).buildAppend fieldNode =
      mkShaped (some nm) (pre ++ [(some a, b, c)] ++ [(none, none, none)]) := by
    apply XMLObject_eq
    · rfl
    · rw [show ((mkShaped (some nm) (pre ++ [(some a, b, c)])).buildAppend fieldNode).tags =
          (mkShaped (some nm) (pre ++ [(some a, b, c)])).tags ++ [nameT, typeT, valueT]
          from rfl]
      rw [tags_shaped_last, tags_shaped_last]
      rw [show (pre ++ [(some a, b, c)]).length = pre.length + 1 from by simp]
      rw [Trep_add pre.length 1, show Trep 1 = [nameT, typeT, valueT] from by decide]
      simp [List.cons_append, List.append_assoc]
    · rw [show ((mkShaped (some nm) (pre ++ [(some a, b, c)])).buildAppend fieldNode).values =
          (mkShaped (some nm) (pre ++ [(some a, b, c)])).values ++ [none, none, none]
          from rfl]
      rw [vals_shaped_last, vals_shaped_last]
      simp [Vg_append, Vg_cons, Vg, List.append_assoc]
  have hli2 : last_index ((mkShaped (some nm) (pre ++ [(some a, b, c)])).buildAppend
      fieldNode).tags nameT = some (3 * (pre ++ [(some a, b, c)]).length + 1) := by
    rw [hbuild, tags_shaped_last, last_index_tail3_name]
    simp only [List.length_cons, Trep_length]
  simp only [XMLObject.set_value, hli, hval, hfind,
    show fieldNode.repeatable = true from rfl, if_true, hli2]
  rw [hbuild]
  simp only [XMLObject.assign, show nameNode.allowed_values = none from rfl]
  have hobj : ({ (mkShaped (some nm) (pre ++ [(some a, b, c)] ++ [(none, none, none)])) with
      values := (mkShaped (some nm) (pre ++ [(some a, b, c)] ++
        [(none, none, none)])).values.set
        (3 * (pre ++ [(some a, b, c)]).length + 1) (some v) } : XMLObject) =
      mkShaped (some nm) (pre ++ [(some a, b, c)] ++ [(some v, none, none)]) := by
    apply XMLObject_eq
    · rfl
    · simp [mkShaped]
    · exact vals_set_last_1 (some nm) (pre ++ [(some a, b, c)]) none none none v
  rw [hobj]

/-- set_value on a shaped Record whose last group has an unset type slot and
an allowed type value: stores the type. -/
theorem sv_type (nm v : List Char) (pre : List Row) (a c : Option (List Char))
    (hv : (v == str "int" || v == str "string") = true) :
    (mkShaped (some nm) (pre ++ [(a, none, c)])).set_value typeT v =
      some (mkShaped (some nm) (pre ++ [(a, some v, c)]), true, []) := by
  have hcont : ([str "int", str "string"] : List (List Char)).contains v = true := by
    rcases (Bool.or_eq_true _ _).mp hv with h | h
    · rw [eq_of_beq h]
      decide
    · rw [eq_of_beq h]
      decide
  have hli : last_index (mkShaped (some nm) (pre ++ [(a, none, c)])).tags typeT =
      some (3 * pre.length + 2) := by
    rw [tags_shaped_last, last_index_tail3_type]
    simp only [List.length_cons, Trep_length]
  have hval := vals_idx_last_2 (some nm) pre a none c
  have hfind : tagToNodeP none (mkShaped (some nm) (pre ++ [(a, none, c)])).structNode typeT =
      some (typeNode, some fieldNode) := by
    rw [show (mkShaped (some nm) (pre ++ [(a, none, c)])).structNode = objectNode from rfl]
    decide
  simp only [XMLObject.set_value, hli, hval, hfind]
  simp only [XMLObject.assign,
    show typeNode.allowed_values = some [str "int", str "string"] from rfl, hcont, if_true]
  have hobj : ({ (mkShaped (some nm) (pre ++ [(a, none, c)])) with
      values := (mkShaped (some nm) (pre ++ [(a, none, c)])).values.set
        (3 * pre.length + 2) (some v) } : XMLObject) =
      mkShaped (some nm) (pre ++ [(a, some v, c)]) := by
    apply XMLObject_eq
    · rfl
    · simp [mkShaped]
    · exact vals_set_last_2 (some nm) pre a none c v
  rw [hobj]

/-- set_value on a shaped Record whose last group has an unset value slot:
stores the value. -/
theorem sv_value (nm v : List Char) (pre : List Row) (a b : Option (List Char)) :
    (mkShaped (some nm) (pre ++ [(a, b, none)])).set_value valueT v =
      some (mkShaped (some nm) (pre ++ [(a, b, some v)]), true, []) := by
  have hli : last_index (mkShaped (some nm) (pre ++ [(a, b, none)])).tags valueT =
      some (3 * pre.length + 3) := by
    rw [tags_shaped_last, last_index_tail3_value]
    simp only [List.length_cons, Trep_length]
  have hval := vals_idx_last_3 (some nm) pre a b none
  have hfind : tagToNodeP none (mkShaped (some nm) (pre ++ [(a, b, none)])).structNode valueT =
      some (valueNode, some fieldNode) := by
    rw [show (mkShaped (some nm) (pre ++ [(a, b, none)])).structNode = objectNode from rfl]
    decide
  simp only [XMLObject.set_value, hli, hval, hfind]
  simp only [XMLObject.assign, show valueNode.allowed_values = none from rfl]
  have hobj : ({ (mkShaped (some nm) (pre ++ [(a, b, none)])) with
      values := (mkShaped (some nm) (pre ++ [(a, b, none)])).values.set
        (3 * pre.length + 3) (some v) } : XMLObject) =
      mkShaped (some nm) (pre ++ [(a, b, some v)]) := by
    apply XMLObject_eq
    · rfl
    · simp [mkShaped]
    · exact vals_set_last_3 (some nm) pre a b none v
  rw [hobj]

/- One-token convRun steps on the canonical schema stacks. -/

theorem beq_false_of_not_mem (v t : List Char) (hc : '<' ∈ t) (hv : '<' ∉ v) :
    (v == t) = false := by
  rw [beq_eq_false_iff_ne]
  rintro rfl
  exact hv hc

theorem head_not_lt (v : List Char) (hne : v ≠ []) (hv : '<' ∉ v) :
    (v.head? == some '<') = false := by
  cases v with
  | nil => exact absurd rfl hne
  | cons c cs =>
    simp only [List.head?_cons]
    rw [beq_eq_false_iff_ne]
    intro h
    exact hv (by rw [← Option.some.inj h]; exact List.mem_cons_self c cs)

theorem closeStep_match (top : Node) (ct : List Char) (stk : List Node)
    (cur : XMLObject) (objs : List XMLObject) (c : Nat) (ds : List CDiag)
    (h : (ct == matching_tag top.value) = true) :
    closeStep top ct ⟨stk, cur, objs, c, ds⟩ = ⟨stk.tail, cur, objs, c + 1, ds⟩ := by
  unfold closeStep
  rw [h]
  rw [if_pos rfl]

theorem cr_open (rest : List (List Char)) (cur : XMLObject) (objs : List XMLObject)
    (c : Nat) (ds : List CDiag) :
    convRun objectNode (objectO :: rest) ⟨[], cur, objs, c, ds⟩ =
      convRun objectNode rest ⟨[objectNode], XMLObject.init objectNode, objs, c + 1, ds⟩ := by
  simp only [convRun, show convStep objectNode objectO ⟨[], cur, objs, c, ds⟩ =
    .cont ⟨[objectNode], XMLObject.init objectNode, objs, c + 1, ds⟩ from rfl]

theorem cr_push_objname (rest : List (List Char)) (cur : XMLObject) (objs : List XMLObject)
    (c : Nat) (ds : List CDiag) :
    convRun objectNode (objNameT :: rest) ⟨[objectNode], cur, objs, c, ds⟩ =
      convRun objectNode rest ⟨[objNameNode, objectNode], cur, objs, c + 1, ds⟩ := by
  simp only [convRun, show convStep objectNode objNameT ⟨[objectNode], cur, objs, c, ds⟩ =
    .cont ⟨[objNameNode, objectNode], cur, objs, c + 1, ds⟩ from rfl]

theorem cr_push_field (rest : List (List Char)) (cur : XMLObject) (objs : List XMLObject)
    (c : Nat) (ds : List CDiag) :
    convRun objectNode (fieldO :: rest) ⟨[objectNode], cur, objs, c, ds⟩ =
      convRun objectNode rest ⟨[fieldNode, objectNode], cur, objs, c + 1, ds⟩ := by
  simp only [convRun, show convStep objectNode fieldO ⟨[objectNode], cur, objs, c, ds⟩ =
    .cont ⟨[fieldNode, objectNode], cur, objs, c + 1, ds⟩ from rfl]

theorem cr_push_name (rest : List (List Char)) (cur : XMLObject) (objs : List XMLObject)
    (c : Nat) (ds : List CDiag) :
    convRun objectNode (nameT :: rest) ⟨[fieldNode, objectNode], cur, objs, c, ds⟩ =
      convRun objectNode rest ⟨[nameNode, fieldNode, objectNode], cur, objs, c + 1, ds⟩ := by
  simp only [convRun, show convStep objectNode nameT ⟨[fieldNode, objectNode], cur, objs, c, ds⟩ =
    .cont ⟨[nameNode, fieldNode, objectNode], cur, objs, c + 1, ds⟩ from rfl]

theorem cr_push_type (rest : List (List Char)) (cur : XMLObject) (objs : List XMLObject)
    (c : Nat) (ds : List CDiag) :
    convRun objectNode (typeT :: rest) ⟨[fieldNode, objectNode], cur, objs, c, ds⟩ =
      convRun objectNode rest ⟨[typeNode, fieldNode, objectNode], cur, objs, c + 1, ds⟩ := by
  simp only [convRun, show convStep objectNode typeT ⟨[fieldNode, objectNode], cur, objs, c, ds⟩ =
    .cont ⟨[typeNode, fieldNode, objectNode], cur, objs, c + 1, ds⟩ from rfl]

theorem cr_push_value (rest : List (List Char)) (cur : XMLObject) (objs : List XMLObject)
    (c : Nat) (ds : List CDiag) :
    convRun objectNode (valueT :: rest) ⟨[fieldNode, objectNode], cur, objs, c, ds⟩ =
      convRun objectNode rest ⟨[valueNode, fieldNode, objectNode], cur, objs, c + 1, ds⟩ := by
  simp only [convRun, show convStep objectNode valueT ⟨[fieldNode, objectNode], cur, objs, c, ds⟩ =
    .cont ⟨[valueNode, fieldNode, objectNode], cur, objs, c + 1, ds⟩ from rfl]

theorem cr_close_field (rest : List (List Char)) (cur : XMLObject) (objs : List XMLObject)
    (c : Nat) (ds : List CDiag) :
    convRun objectNode (fieldC :: rest) ⟨[fieldNode, objectNode], cur, objs, c, ds⟩ =
      convRun objectNode rest ⟨[objectNode], cur, objs, c + 1, ds⟩ := by
  have hstep : convStep objectNode fieldC ⟨[fieldNode, objectNode], cur, objs, c, ds⟩ =
      .cont ⟨[objectNode], cur, objs, c + 1, ds⟩ := by
    unfold convStep
    dsimp only
    rw [show (fieldC == matching_tag fieldNode.value) = true from by decide, if_pos rfl]
    rw [show (fieldNode.value == objectNode.value) = false from by decide]
    rfl
  rw [convRun, hstep]

theorem cr_close_object (rest : List (List Char)) (cur : XMLObject) (objs : List XMLObject)
    (c : Nat) (ds : List CDiag) :
    convRun objectNode (objectC :: rest) ⟨[objectNode], cur, objs, c, ds⟩ =
      convRun objectNode rest ⟨[], cur, objs ++ [cur], c + 1, ds⟩ := by
  have hstep : convStep objectNode objectC ⟨[objectNode], cur, objs, c, ds⟩ =
      .cont ⟨[], cur, objs ++ [cur], c + 1, ds⟩ := by
    unfold convStep
    dsimp only
    rw [show (objectC == matching_tag objectNode.value) = true from by decide, if_pos rfl]
    rw [show (objectNode.value == objectNode.value) = true from by decide]
    rfl
  rw [convRun, hstep]

/-- A legal value token at a leaf top assigns into the Record, and the next
token is consumed as the matching closing tag: two tokens, a pop, no
diagnostics. -/
theorem cr_value (top : Node) (srest : List Node) (v ct : List Char)
    (rest : List (List Char)) (cur cur2 : XMLObject) (objs : List XMLObject)
    (c : Nat) (ds : List CDiag)
    (htop : top.hasChild = false)
    (h1 : (v == matching_tag top.value) = false)
    (h2 : (decide (2 < v.length) && v[1]? == some '/') = false)
    (h3 : (v.head? == some '<') = false)
    (hct : (ct == matching_tag top.value) = true)
    (hsv : cur.set_value top.value v = some (cur2, true, [])) :
    convRun objectNode (v :: ct :: rest) ⟨top :: srest, cur, objs, c, ds⟩ =
      convRun objectNode rest ⟨srest, cur2, objs, c + 2, ds⟩ := by
  have hstep : convStep objectNode v ⟨top :: srest, cur, objs, c, ds⟩ =
      .needClose top ⟨top :: srest, cur2, objs, c + 1, ds⟩ := by
    unfold convStep
    simp only [h1, h2, htop, h3, Bool.false_eq_true, if_false, hsv, List.map_nil,
      List.append_nil]
  simp only [convRun, hstep]
  rw [closeStep_match top ct (top :: srest) cur2 objs (c + 1) ds hct]
  rfl

/-- The Validator consumes the eleven tokens of a legal field group whose
Record still has an unset last group: it fills that group in place. -/
theorem convRun_group_fresh (g : CGroup) (hg : legalGroupA g = true) (nm : List Char)
    (pre : List Row) (rest : List (List Char)) (objs : List XMLObject) (c : Nat)
    (ds : List CDiag) :
    convRun objectNode (groupTokens g ++ rest)
      ⟨[objectNode], mkShaped (some nm) (pre ++ [(none, none, none)]), objs, c, ds⟩ =
    convRun objectNode rest
      ⟨[objectNode], mkShaped (some nm)
        (pre ++ [(some g.fname, some g.ftype, some g.fvalue)]), objs, c + 11, ds⟩ := by
  unfold legalGroupA at hg
  simp only [Bool.and_eq_true] at hg
  obtain ⟨⟨⟨⟨⟨hfn, hfv⟩, hft⟩, hfi⟩, hcm1⟩, hcm2⟩ := hg
  obtain ⟨hfn1, hfn2, _, hfn4⟩ := plainValue_facts _ hfn
  obtain ⟨hfv1, hfv2, _, hfv4⟩ := plainValue_facts _ hfv
  have hftP : plainValue g.ftype = true := by
    rcases (Bool.or_eq_true _ _).mp hft with h | h <;> rw [eq_of_beq h] <;> decide
  obtain ⟨hft1, hft2, _, hft4⟩ := plainValue_facts _ hftP
  rw [show groupTokens g ++ rest = fieldO :: nameT :: g.fname :: nameC :: typeT ::
    g.ftype :: typeC :: valueT :: g.fvalue :: valueC :: fieldC :: rest from rfl]
  rw [cr_push_field, cr_push_name]
  rw [cr_value nameNode [fieldNode, objectNode] g.fname nameC _ _ _ _ _ _
    rfl (beq_false_of_not_mem _ _ (by decide) hfn2) hfn4
    (head_not_lt _ hfn1 hfn2) (by decide)
    (sv_name_fresh nm g.fname pre none none)]
  rw [cr_push_type]
  rw [cr_value typeNode [fieldNode, objectNode] g.ftype typeC _ _ _ _ _ _
    rfl (beq_false_of_not_mem _ _ (by decide) hft2) hft4
    (head_not_lt _ hft1 hft2) (by decide)
    (sv_type nm g.ftype pre (some g.fname) none hft)]
  rw [cr_push_value]
  rw [cr_value valueNode [fieldNode, objectNode] g.fvalue valueC _ _ _ _ _ _
    rfl (beq_false_of_not_mem _ _ (by decide) hfv2) hfv4
    (head_not_lt _ hfv1 hfv2) (by decide)
    (sv_value nm g.fvalue pre (some g.fname) (some g.ftype))]
  rw [cr_close_field]

/-- The Validator consumes the eleven tokens of a legal field group whose
Record's last group is already named: the repeatable subtree is cloned and the
new group filled. -/
theorem convRun_group_next (g : CGroup) (hg : legalGroupA g = true) (nm a : List Char)
    (b c0 : Option (List Char)) (pre : List Row) (rest : List (List Char))
    (objs : List XMLObject) (c : Nat) (ds : List CDiag) :
    convRun objectNode (groupTokens g ++ rest)
      ⟨[objectNode], mkShaped (some nm) (pre ++ [(some a, b, c0)]), objs, c, ds⟩ =
    convRun objectNode rest
      ⟨[objectNode], mkShaped (some nm) (pre ++ [(some a, b, c0)] ++
        [(some g.fname, some g.ftype, some g.fvalue)]), objs, c + 11, ds⟩ := by
  unfold legalGroupA at hg
  simp only [Bool.and_eq_true] at hg
  obtain ⟨⟨⟨⟨⟨hfn, hfv⟩, hft⟩, hfi⟩, hcm1⟩, hcm2⟩ := hg
  obtain ⟨hfn1, hfn2, _, hfn4⟩ := plainValue_facts _ hfn
  obtain ⟨hfv1, hfv2, _, hfv4⟩ := plainValue_facts _ hfv
  have hftP : plainValue g.ftype = true := by
    rcases (Bool.or_eq_true _ _).mp hft with h | h <;> rw [eq_of_beq h] <;> decide
  obtain ⟨hft1, hft2, _, hft4⟩ := plainValue_facts _ hftP
  rw [show groupTokens g ++ rest = fieldO :: nameT :: g.fname :: nameC :: typeT ::
    g.ftype :: typeC :: valueT :: g.fvalue :: valueC :: fieldC :: rest from rfl]
  rw [cr_push_field, cr_push_name]
  rw [cr_value nameNode [fieldNode, objectNode] g.fname nameC _ _ _ _ _ _
    rfl (beq_false_of_not_mem _ _ (by decide) hfn2) hfn4
    (head_not_lt _ hfn1 hfn2) (by decide)
    (sv_name_rep nm g.fname a pre b c0)]
  rw [cr_push_type]
  rw [cr_value typeNode [fieldNode, objectNode] g.ftype typeC _ _ _ _ _ _
    rfl (beq_false_of_not_mem _ _ (by decide) hft2) hft4
    (head_not_lt _ hft1 hft2) (by decide)
    (sv_type nm g.ftype (pre ++ [(some a, b, c0)]) (some g.fname) none hft)]
  rw [cr_push_value]
  rw [cr_value valueNode [fieldNode, objectNode] g.fvalue valueC _ _ _ _ _ _
    rfl (beq_false_of_not_mem _ _ (by decide) hfv2) hfv4
    (head_not_lt _ hfv1 hfv2) (by decide)
    (sv_value nm g.fvalue (pre ++ [(some a, b, c0)]) (some g.fname) (some g.ftype))]
  rw [cr_close_field]

/-- The Validator consumes a run of legal field groups after the first, each
cloning a fresh group onto the Record. -/
theorem convRun_groups_next : ∀ (gs : List CGroup), gs.all legalGroupA = true →
    ∀ (nm a : List Char) (b c0 : Option (List Char)) (pre : List Row)
      (rest : List (List Char)) (objs : List XMLObject) (c : Nat) (ds : List CDiag),
    convRun objectNode ((gs.map groupTokens).flatten ++ rest)
      ⟨[objectNode], mkShaped (some nm) (pre ++ [(some a, b, c0)]), objs, c, ds⟩ =
    convRun objectNode rest
      ⟨[objectNode], mkShaped (some nm) (pre ++ (some a, b, c0) :: gs.map rowOf),
        objs, c + 11 * gs.length, ds⟩ := by
  intro gs
  induction gs with
  | nil =>
    intro _ nm a b c0 pre rest objs c ds
    simp
  | cons g gs2 ih =>
    intro hall nm a b c0 pre rest objs c ds
    simp only [List.all_cons, Bool.and_eq_true] at hall
    obtain ⟨hg, hall2⟩ := hall
    rw [show (((g :: gs2).map groupTokens).flatten ++ rest) =
        groupTokens g ++ ((gs2.map groupTokens).flatten ++ rest) from by simp]
    rw [convRun_group_next g hg nm a b c0 pre ((gs2.map groupTokens).flatten ++ rest)
      objs c ds]
    rw [ih hall2 nm g.fname (some g.ftype) (some g.fvalue) (pre ++ [(some a, b, c0)])
      rest objs (c + 11) ds]
    rw [show (pre ++ [(some a, b, c0)]) ++
        (some g.fname, some g.ftype, some g.fvalue) :: gs2.map rowOf =
        pre ++ (some a, b, c0) :: (g :: gs2).map rowOf from by
      simp [rowOf, List.append_assoc]]
    rw [show c + 11 + 11 * gs2.length = c + 11 * (g :: gs2).length from by
      simp only [List.length_cons]; omega]

/-- The Validator consumes the tokens of one legal instance from an empty
stack: it completes exactly the instance's Record and appends it to the
objects, with no diagnostics. -/
theorem convRun_inst (i : CInst) (hi : legalInstA i = true) (rest : List (List Char))
    (cur : XMLObject) (objs : List XMLObject) (c : Nat) (ds : List CDiag) :
    convRun objectNode (instTokens i ++ rest) ⟨[], cur, objs, c, ds⟩ =
      convRun objectNode rest
        ⟨[], recordOf i, objs ++ [recordOf i], c + (11 * i.groups.length + 5), ds⟩ := by
  have hi2 := hi
  unfold legalInstA at hi2
  simp only [Bool.and_eq_true, Bool.not_eq_true'] at hi2
  obtain ⟨⟨hnm, hne⟩, hgs⟩ := hi2
  obtain ⟨hnm1, hnm2, _, hnm4⟩ := plainValue_facts _ hnm
  obtain ⟨g0, gs', hgseq⟩ : ∃ g0 gs', i.groups = g0 :: gs' := by
    cases hgg : i.groups with
    | nil => rw [hgg] at hne; simp at hne
    | cons g0 gs' => exact ⟨g0, gs', rfl⟩
  rw [show instTokens i ++ rest = objectO :: objNameT :: i.iname :: objNameC ::
      ((i.groups.map groupTokens).flatten ++ (objectC :: rest)) from by
    simp [instTokens]]
  rw [cr_open, cr_push_objname]
  rw [cr_value objNameNode [objectNode] i.iname objNameC _ _ _ _ _ _
    rfl (beq_false_of_not_mem _ _ (by decide) hnm2) hnm4
    (head_not_lt _ hnm1 hnm2) (by decide) (sv_objname i.iname)]
  rw [hgseq]
  rw [show ((g0 :: gs').map groupTokens).flatten ++ (objectC :: rest) =
      groupTokens g0 ++ ((gs'.map groupTokens).flatten ++ (objectC :: rest)) from by simp]
  rw [hgseq] at hgs
  simp only [List.all_cons, Bool.and_eq_true] at hgs
  obtain ⟨hg0, hgs'⟩ := hgs
  rw [show (mkShaped (some i.iname) [(none, none, none)]) =
      mkShaped (some i.iname) (([] : List Row) ++ [(none, none, none)]) from rfl]
  rw [convRun_group_fresh g0 hg0 i.iname [] _ objs _ _]
  rw [convRun_groups_next gs' hgs' i.iname g0.fname (some g0.ftype) (some g0.fvalue) []
    _ objs _ _]
  rw [cr_close_object]
  rw [show (([] : List Row) ++ (some g0.fname, some g0.ftype, some g0.fvalue) ::
      gs'.map rowOf) = (g0 :: gs').map rowOf from by simp [rowOf]]
  rw [show mkShaped (some i.iname) ((g0 :: gs').map rowOf) = recordOf i from by
    rw [recordOf, hgseq]]
  rw [show c + 1 + 1 + 2 + 11 + 11 * gs'.length + 1 =
      c + (11 * i.groups.length + 5) from by rw [hgseq]; simp only [List.length_cons]; omega]
  rw [hgseq]

/-- The Validator consumes the canonical token stream of a run of legal
instances: the completed Records are exactly their shaped Records, in order,
with no diagnostics. -/
theorem convRun_insts : ∀ (insts : List CInst), insts.all legalInstA = true →
    ∀ (rest : List (List Char)) (cur : XMLObject) (objs : List XMLObject)
      (c : Nat) (ds : List CDiag),
    ∃ cur2 c2, convRun objectNode (canonTokens insts ++ rest) ⟨[], cur, objs, c, ds⟩ =
      convRun objectNode rest ⟨[], cur2, objs ++ insts.map recordOf, c2, ds⟩ := by
  intro insts
  induction insts with
  | nil =>
    intro _ rest cur objs c ds
    exact ⟨cur, c, by simp [canonTokens]⟩
  | cons i insts2 ih =>
    intro hall rest cur objs c ds
    simp only [List.all_cons, Bool.and_eq_true] at hall
    obtain ⟨hi, hall2⟩ := hall
    rw [show canonTokens (i :: insts2) ++ rest =
        instTokens i ++ (canonTokens insts2 ++ rest) from by simp [canonTokens]]
    rw [convRun_inst i hi _ cur objs c ds]
    obtain ⟨cur2, c2, h2⟩ := ih hall2 rest (recordOf i) (objs ++ [recordOf i])
      (c + (11 * i.groups.length + 5)) ds
    rw [h2]
    refine ⟨cur2, c2, ?_⟩
    rw [show (objs ++ [recordOf i]) ++ insts2.map recordOf =
        objs ++ (i :: insts2).map recordOf from by simp]

/-- The full front half of the pipeline on canonical legal input: the Lexer
tokenizes silently and the Validator completes exactly the shaped Records. -/
theorem pipelineRun_canon (insts : List CInst) (h : insts.all legalInstA = true) :
    ∃ cur2 c2, pipelineRun (canonicalText insts) =
      some ⟨[], cur2, insts.map recordOf, c2, []⟩ := by
  unfold pipelineRun initialState
  rw [lexAll_canon insts h]
  obtain ⟨cur2, c2, hrun⟩ := convRun_insts insts h [] (XMLObject.init objectNode) [] 0 []
  rw [List.append_nil] at hrun
  refine ⟨cur2, c2, ?_⟩
  rw [show ((canonTokens insts, ([] : List PDiag)).1) = canonTokens insts from rfl]
  rw [hrun]
  rw [show convRun objectNode [] ⟨[], cur2, [] ++ insts.map recordOf, c2, []⟩ =
      some ⟨[], cur2, [] ++ insts.map recordOf, c2, []⟩ from rfl]
  rw [List.nil_append]

/- Claim C1, stage three: convert on the completed shaped Records. -/

theorem groupLineOf_legal (g : CGroup) (hg : legalGroupA g = true) :
    groupLineOf (rowOf g) = some (lineOfC g) := by
  unfold legalGroupA at hg
  simp only [Bool.and_eq_true] at hg
  obtain ⟨⟨⟨⟨⟨hfn, hfv⟩, hft⟩, hfi⟩, hcm1⟩, hcm2⟩ := hg
  have hcond : (g.ftype == str "int" && !pyIsDigit g.fvalue) = false := by
    rcases (Bool.or_eq_true _ _).mp hfi with h | h
    · rw [eq_of_beq h]
      simp [show ((str "string" == str "int") : Bool) = false from by decide]
    · rw [h]
      simp
  unfold groupLineOf rowOf lineOfC
  dsimp only
  rw [hcond]
  simp

theorem groupDiagOf_legal (num : Nat) (g : CGroup) (hg : legalGroupA g = true) :
    groupDiagOf num (rowOf g) = none := by
  unfold legalGroupA at hg
  simp only [Bool.and_eq_true] at hg
  obtain ⟨⟨⟨⟨⟨hfn, hfv⟩, hft⟩, hfi⟩, hcm1⟩, hcm2⟩ := hg
  have hcond : (g.ftype == str "int" && !pyIsDigit g.fvalue) = false := by
    rcases (Bool.or_eq_true _ _).mp hfi with h | h
    · rw [eq_of_beq h]
      simp [show ((str "string" == str "int") : Bool) = false from by decide]
    · rw [h]
      simp
  unfold groupDiagOf rowOf
  dsimp only
  rw [hcond]
  simp

theorem filterMap_groupLineOf_legal : ∀ (gs : List CGroup), gs.all legalGroupA = true →
    (gs.map rowOf).filterMap groupLineOf = gs.map lineOfC := by
  intro gs
  induction gs with
  | nil => intro _; rfl
  | cons g gs2 ih =>
    intro hall
    simp only [List.all_cons, Bool.and_eq_true] at hall
    obtain ⟨hg, hall2⟩ := hall
    simp only [List.map_cons, List.filterMap_cons, groupLineOf_legal g hg, ih hall2]

theorem filterMap_groupDiagOf_legal (num : Nat) : ∀ (gs : List CGroup),
    gs.all legalGroupA = true →
    (gs.map rowOf).filterMap (groupDiagOf num) = [] := by
  intro gs
  induction gs with
  | nil => intro _; rfl
  | cons g gs2 ih =>
    intro hall
    simp only [List.all_cons, Bool.and_eq_true] at hall
    obtain ⟨hg, hall2⟩ := hall
    simp only [List.map_cons, List.filterMap_cons, groupDiagOf_legal num g hg, ih hall2]

/-- convert on one legal instance's Record: the full block, no diagnostics,
name reserved. -/
theorem convertObj_canon (i : CInst) (hi : legalInstA i = true) (num : Nat)
    (names : List (List Char)) (hnm : names.contains i.iname = false) :
    convertObj (recordOf i) num names =
      (headerLine i.iname :: i.groups.map lineOfC ++ [closerLine], [],
        names ++ [i.iname]) := by
  have hi2 := hi
  unfold legalInstA at hi2
  simp only [Bool.and_eq_true, Bool.not_eq_true'] at hi2
  obtain ⟨⟨_, hne⟩, hgs⟩ := hi2
  rw [recordOf, convertObj_shaped, if_neg (by rw [hnm]; simp)]
  rw [renderObjLines, renderObjDiags]
  rw [filterMap_groupLineOf_legal i.groups hgs, filterMap_groupDiagOf_legal num i.groups hgs]
  have hmne : (i.groups.map lineOfC).isEmpty = false := by
    cases hgg : i.groups with
    | nil => rw [hgg] at hne; simp at hne
    | cons g gs => simp
  rw [hmne]
  simp

/-- convert on the full Record list: one block per instance in order, no
diagnostics, provided the instance names are fresh and mutually distinct. -/
theorem convertList_canon : ∀ (insts : List CInst), insts.all legalInstA = true →
    (insts.map CInst.iname).Nodup →
    ∀ (num : Nat) (names : List (List Char)),
      (∀ x ∈ insts.map CInst.iname, names.contains x = false) →
    convertList (insts.map recordOf) num names =
      ((insts.map (fun i => headerLine i.iname :: i.groups.map lineOfC ++
        [closerLine])).flatten, []) := by
  intro insts
  induction insts with
  | nil => intro _ _ num names _; rfl
  | cons i insts2 ih =>
    intro hall hnd num names hfresh
    simp only [List.all_cons, Bool.and_eq_true] at hall
    obtain ⟨hi, hall2⟩ := hall
    simp only [List.map_cons, List.nodup_cons] at hnd
    obtain ⟨hnin, hnd2⟩ := hnd
    rw [List.map_cons, convertList]
    rw [convertObj_canon i hi (num + 1) names
      (hfresh i.iname (by simp))]
    dsimp only
    rw [ih hall2 hnd2 (num + 1) (names ++ [i.iname]) ?hfresh2]
    case hfresh2 =>
      intro x hx
      have hx1 := hfresh x (by simp [hx])
      have hx2 : x ≠ i.iname := fun hxe => hnin (hxe ▸ hx)
      have hxm : x ∉ names := by simpa using hx1
      have hxm2 : x ∉ names ++ [i.iname] := by
        intro hmem
        rcases List.mem_append.mp hmem with h | h
        · exact hxm h
        · exact hx2 (by simpa using h)
      simpa using hxm2
    simp

/- Claim C1, stage four: flush on the convert queue strips exactly the
   trailing separators. -/

theorem replaceCommaN_id : ∀ (B : List Char), ',' ∉ B → ∀ (m : Nat),
    replaceCommaN B m = B := by
  intro B
  induction B with
  | nil =>
    intro _ m
    cases m <;> rfl
  | cons c cs ih =>
    intro h m
    have hc : ¬ c = ',' := fun hc => h (by rw [hc]; exact List.mem_cons_self ',' cs)
    have hm : ',' ∉ cs := fun hm => h (List.mem_cons_of_mem c hm)
    cases m with
    | zero => rfl
    | succ m2 =>
      rw [replaceCommaN, if_neg hc, ih hm]

theorem replaceCommaN_skip : ∀ (A : List Char), ',' ∉ A → ∀ (B : List Char) (m : Nat),
    replaceCommaN (A ++ B) (m + 1) = A ++ replaceCommaN B (m + 1) := by
  intro A
  induction A with
  | nil => intro _ B m; rfl
  | cons c cs ih =>
    intro h B m
    have hc : ¬ c = ',' := fun hc => h (by rw [hc]; exact List.mem_cons_self ',' cs)
    have hm : ',' ∉ cs := fun hm => h (List.mem_cons_of_mem c hm)
    rw [List.cons_append, replaceCommaN, if_neg hc, ih hm]
    rfl

/-- Stripping a line that is a comma-free prefix followed by ",\n": exactly
the trailing comma is removed. -/
theorem stripLine_exact_general (A : List Char) (hA : ',' ∉ A) (hne : A ≠ []) :
    stripLine (A ++ str ",\n") = A ++ str "\n" := by
  have hlen : (A ++ str ",\n").length = A.length + 2 := by
    rw [List.length_append, show (str ",\n").length = 2 from by decide]
  have hA0 : 0 < A.length := List.length_pos.mpr hne
  unfold stripLine pyReplaceComma
  rw [if_neg (by rw [hlen]; push_cast; omega)]
  rw [show (((A ++ str ",\n").length : Int) - 2).toNat = (A.length - 1) + 1 from by
    rw [hlen]; omega]
  rw [show (str ",\n") = ',' :: str "\n" from by decide]
  rw [replaceCommaN_skip A hA (',' :: str "\n") (A.length - 1)]
  rw [replaceCommaN, if_pos rfl, replaceCommaN_id (str "\n") (by decide) (A.length - 1)]

/-- Stripping a field line with comma-free name and value yields the same
line without its trailing comma. -/
theorem stripLine_field_exact (fn ft fv : List Char) (hfn : ',' ∉ fn) (hfv : ',' ∉ fv) :
    stripLine (fieldLine fn ft fv) = fieldLineLast fn ft fv := by
  unfold fieldLine fieldLineLast
  apply stripLine_exact_general
  · intro hm
    have hq : ',' ∉ (if ft == str "string" then str "\"" else ([] : List Char)) := by
      by_cases hs : (ft == str "string") = true
      · rw [hs]
        decide
      · rw [show (ft == str "string") = false from by
          cases hb : (ft == str "string") with
          | false => rfl
          | true => exact absurd hb hs]
        decide
    simp only [List.mem_append] at hm
    rcases hm with ((((h | h) | h) | h) | h) | h
    · revert h
      decide
    · exact hfn h
    · revert h
      decide
    · exact hq h
    · exact hfv h
    · exact hq h
  · intro h
    have hl := congrArg List.length h
    rw [show (([] : List Char)).length = 0 from rfl] at hl
    simp only [List.length_append] at hl
    rw [show (str "\t\t\"").length = 3 from by decide] at hl
    omega

/-- The comma-freedom the amended legality gives for each written field
line. -/
theorem lineOfC_comma_facts (g : CGroup) (hg : legalGroupA g = true) :
    ',' ∉ g.fname ∧ ',' ∉ g.fvalue := by
  unfold legalGroupA at hg
  simp only [Bool.and_eq_true, Bool.not_eq_true'] at hg
  obtain ⟨⟨⟨⟨⟨hfn, hfv⟩, hft⟩, hfi⟩, hcm1⟩, hcm2⟩ := hg
  constructor
  · simpa using hcm1
  · simpa using hcm2

theorem ntc_lineOfC (g : CGroup) :
    no_trailing_comma.contains (lineOfC g) = false :=
  ntc_field (lineOfC g) ⟨g.fname, g.ftype, g.fvalue, rfl⟩

/-- The flush write loop over the field lines of one block: all lines written
as-is except the last, which loses its trailing comma. -/
theorem flushLoop_fields : ∀ (gs : List CGroup), gs.all legalGroupA = true → gs ≠ [] →
    ∀ (q : List Char) (rest : List (List Char)),
    flushLoop q (gs.map lineOfC ++ closerLine :: rest) =
      q :: (writtenFields gs ++ flushLoop closerLine rest) := by
  intro gs
  induction gs with
  | nil =>
    intro _ h
    exact absurd rfl h
  | cons g gs2 ih =>
    intro hall _ q rest
    simp only [List.all_cons, Bool.and_eq_true] at hall
    obtain ⟨hg, hall2⟩ := hall
    cases gs2 with
    | nil =>
      rw [show ([g].map lineOfC ++ closerLine :: rest) =
          lineOfC g :: closerLine :: rest from by simp]
      rw [flushLoop, if_neg (by rw [ntc_lineOfC]; simp)]
      rw [flushLoop, if_pos ntc_closer]
      obtain ⟨hc1, hc2⟩ := lineOfC_comma_facts g hg
      rw [show stripLine (lineOfC g) = fieldLineLast g.fname g.ftype g.fvalue from
        stripLine_field_exact g.fname g.ftype g.fvalue hc1 hc2]
      rfl
    | cons g2 gs3 =>
      rw [show ((g :: g2 :: gs3).map lineOfC ++ closerLine :: rest) =
          lineOfC g :: ((g2 :: gs3).map lineOfC ++ closerLine :: rest) from by simp]
      rw [flushLoop, if_neg (by rw [ntc_lineOfC]; simp)]
      rw [ih hall2 (by simp) (lineOfC g) rest]
      rfl

/-- The flush write loop over the remaining blocks, with the previous block's
closing line pending: every block is written with its last field stripped, the
closing line of the last block is stripped, and the final brace ends the
output. -/
theorem flushLoop_blocks : ∀ (insts : List CInst), insts.all legalInstA = true →
    flushLoop closerLine
      ((insts.map (fun i => headerLine i.iname :: i.groups.map lineOfC ++
        [closerLine])).flatten ++ [jsonClose]) =
    (match insts with
     | [] => [strippedCloser, jsonClose]
     | _ :: _ => closerLine :: (writtenBlocks insts ++ [jsonClose])) := by
  intro insts
  induction insts with
  | nil =>
    rw [show ((([] : List CInst).map (fun i => headerLine i.iname ::
        i.groups.map lineOfC ++ [closerLine])).flatten ++ [jsonClose]) = [jsonClose]
      from by simp]
    intro _
    rw [flushLoop, if_pos (by decide), stripLine_closer]
    rfl
  | cons i insts2 ih =>
    intro hall
    simp only [List.all_cons, Bool.and_eq_true] at hall
    obtain ⟨hi, hall2⟩ := hall
    have hi2 := hi
    unfold legalInstA at hi2
    simp only [Bool.and_eq_true, Bool.not_eq_true'] at hi2
    obtain ⟨⟨_, hne⟩, hgs⟩ := hi2
    have hgne : i.groups ≠ [] := by
      intro h
      rw [h] at hne
      simp at hne
    rw [show (((i :: insts2).map (fun j => headerLine j.iname ::
        j.groups.map lineOfC ++ [closerLine])).flatten ++ [jsonClose]) =
        headerLine i.iname :: (i.groups.map lineOfC ++ closerLine ::
          ((insts2.map (fun j => headerLine j.iname :: j.groups.map lineOfC ++
            [closerLine])).flatten ++ [jsonClose])) from by
      simp [List.append_assoc]]
    rw [flushLoop, if_neg (by rw [ntc_header]; simp)]
    rw [flushLoop_fields i.groups hgs hgne (headerLine i.iname) _]
    rw [ih hall2]
    cases insts2 with
    | nil =>
      rw [show writtenBlocks [i] = writtenBlock true i from rfl, writtenBlock]
      simp
    | cons j insts3 =>
      rw [show writtenBlocks (i :: j :: insts3) =
          writtenBlock false i ++ writtenBlocks (j :: insts3) from rfl, writtenBlock]
      simp

/-- flush on the canonical convert queue writes exactly the rendered JSON. -/
theorem flushResult_canon (insts : List CInst) (h : insts.all legalInstA = true)
    (hne : insts ≠ []) :
    flushResult (jsonOpen :: (insts.map (fun i => headerLine i.iname ::
      i.groups.map lineOfC ++ [closerLine])).flatten ++ [jsonClose]) =
    (some (writtenRender insts), []) := by
  obtain ⟨i, insts2, rfl⟩ : ∃ i insts2, insts = i :: insts2 := by
    cases insts with
    | nil => exact absurd rfl hne
    | cons i r => exact ⟨i, r, rfl⟩
  simp only [List.all_cons, Bool.and_eq_true] at h
  obtain ⟨hi, hall2⟩ := h
  have hi2 := hi
  unfold legalInstA at hi2
  simp only [Bool.and_eq_true, Bool.not_eq_true'] at hi2
  obtain ⟨⟨_, hne2⟩, hgs⟩ := hi2
  have hgne : i.groups ≠ [] := by
    intro hh
    rw [hh] at hne2
    simp at hne2
  rw [show (jsonOpen :: ((i :: insts2).map (fun j => headerLine j.iname ::
      j.groups.map lineOfC ++ [closerLine])).flatten ++ [jsonClose]) =
      jsonOpen :: headerLine i.iname :: (i.groups.map lineOfC ++ closerLine ::
        ((insts2.map (fun j => headerLine j.iname :: j.groups.map lineOfC ++
          [closerLine])).flatten ++ [jsonClose])) from by
    simp [List.append_assoc]]
  rw [flushResult]
  rw [if_neg (by
    cases hg : i.groups.map lineOfC with
    | nil => simp
    | cons x xs => simp [hg])]
  rw [flushLoop_fields i.groups hgs hgne (headerLine i.iname) _]
  rw [flushLoop_blocks insts2 hall2]
  unfold writtenRender
  cases insts2 with
  | nil =>
    rw [show writtenBlocks [i] = writtenBlock true i from rfl, writtenBlock]
    simp
  | cons j insts3 =>
    rw [show writtenBlocks (i :: j :: insts3) =
        writtenBlock false i ++ writtenBlocks (j :: insts3) from rfl, writtenBlock]
    simp

/-- The whole pipeline on canonical legal input with distinct names writes
exactly the rendered JSON. -/
theorem pipelineWritten_canon (insts : List CInst) (h : insts.all legalInstA = true)
    (hnd : (insts.map CInst.iname).Nodup) (hne : insts ≠ []) :
    pipelineWritten (canonicalText insts) = some (writtenRender insts) := by
  obtain ⟨cur2, c2, hrun⟩ := pipelineRun_canon insts h
  unfold pipelineWritten
  rw [hrun]
  dsimp only
  rw [if_pos (by
    simp only [List.length_map]
    exact List.length_pos.mpr hne)]
  unfold convertLines
  rw [convertList_canon insts h hnd 0 [] (fun x _ => rfl)]
  rw [show ((((insts.map (fun i => headerLine i.iname :: i.groups.map lineOfC ++
      [closerLine])).flatten, ([] : List ODiag))).1) =
      (insts.map (fun i => headerLine i.iname :: i.groups.map lineOfC ++
        [closerLine])).flatten from rfl]
  rw [flushResult_canon insts h hne]

/-- Claim C1 (counterexample): the canonical text of a single instance named
"A" with no field groups is well-formed for the schema (every tag properly
nested and matched, every value legal), yet the pipeline writes no output at
all - there is no entry for the instance, because convert emits no lines for
a record with no valid group and flush then reports an empty body instead of
writing. -/
theorem claimC1_counterexample :
    legalInst { iname := str "A", groups := [] } = true ∧
      pipelineWritten (canonicalText [{ iname := str "A", groups := [] }]) = none := by
  decide

/-- Claim C1 (amended): for every run of instances whose canonical well-formed
text has legal, comma-free values (with every value's second character not
'/'), at least one field group per instance, all-digit values for int-typed
groups, and pairwise distinct instance names, the pipeline is silent in every
phase and writes exactly one entry per instance, keyed by the instance's name
leaf, with each field group emitted as a name-value line whose value is
double-quoted if and only if the group's declared type is the string type:
the Lexer yields exactly the canonical tokens with no diagnostics, the
Validator completes exactly the shaped Records with no diagnostics, convert
emits no diagnostics, and the written file is exactly the rendered JSON. -/
theorem claimC1_amended (insts : List CInst) (h : insts.all legalInstA = true)
    (hnd : (insts.map CInst.iname).Nodup) (hne : insts ≠ []) :
    lexAll (canonicalText insts) = (canonTokens insts, []) ∧
      (∃ cur2 c2, pipelineRun (canonicalText insts) =
        some ⟨[], cur2, insts.map recordOf, c2, []⟩) ∧
      convertDiags (insts.map recordOf) = [] ∧
      pipelineWritten (canonicalText insts) = some (writtenRender insts) := by
  refine ⟨lexAll_canon insts h, pipelineRun_canon insts h, ?_,
    pipelineWritten_canon insts h hnd hne⟩
  unfold convertDiags
  rw [convertList_canon insts h hnd 0 [] (fun x _ => rfl)]

/-- Claim C1 (witness): one instance "Alpha" with one int-typed group
("count", 5): the pipeline writes exactly its rendered entry. -/
theorem claimC1_witness :
    (([⟨str "Alpha", [⟨str "count", str "int", str "5"⟩]⟩] : List CInst).all
        legalInstA = true) ∧
    (([⟨str "Alpha", [⟨str "count", str "int", str "5"⟩]⟩] : List CInst).map
        CInst.iname).Nodup ∧
    (([⟨str "Alpha", [⟨str "count", str "int", str "5"⟩]⟩] : List CInst) ≠ []) ∧
    pipelineWritten (canonicalText [⟨str "Alpha", [⟨str "count", str "int", str "5"⟩]⟩]) =
      some (writtenRender [⟨str "Alpha", [⟨str "count", str "int", str "5"⟩]⟩]) :=
  ⟨by decide, by decide, by decide,
   (claimC1_amended [⟨str "Alpha", [⟨str "count", str "int", str "5"⟩]⟩]
      (by decide) (by decide) (by decide)).2.2.2⟩
